import Mathlib

/-!
Verification of the cannonball QEMU-plugin callback/event-assembly subsystem.

The definitions below are a shallow embedding of `src/plugin/src/callback.c`
(the plugin implementation: three identity-keyed registries, per-instruction
events, memory-wrapped events with `mem`/`exec` flags, per-vCPU syscall
records) and of the syscall path of `src/src/callback.c` (the older variant
with a single global syscall slot).  Hash tables keyed by pointer identity are
modelled as association lists keyed by abstract allocation ids handed out by a
monotone counter; the host emulator is modelled by a step relation whose
actions invoke the registered callbacks.
-/

namespace Cannonball

/-! ## Event flag bits

Numeric values from `cannonball-client/ffi/fodder-client.h`
(`EventFlags_PC = 1`, `EventFlags_READS_WRITES = 2`, `EventFlags_INSTRS = 8`,
`EventFlags_SYSCALLS = 16`, `EventFlags_BRANCHES = 32`, `EventFlags_EXECUTED = 64`).
The plugin additionally uses `EventFlags_LOAD` and `EventFlags_FINISHED` from
its own client header (not present in the sources); they are modelled as the
next two distinct bits, which is all the callback code depends on. -/

def FLAG_PC : Nat := 1
def FLAG_READS_WRITES : Nat := 2
def FLAG_INSTRS : Nat := 8
def FLAG_SYSCALLS : Nat := 16
def FLAG_BRANCHES : Nat := 32
def FLAG_EXECUTED : Nat := 64
def FLAG_LOAD : Nat := 128
def FLAG_FINISHED : Nat := 256

/-- SETFLAGS macro: build the static configuration mask from the five booleans
(`trace_pc`, `trace_read | trace_write`, `trace_instr`, `trace_syscall`,
`trace_branch`). -/
def setflags (p rw i s b : Bool) : Nat :=
  (if p then FLAG_PC else 0) ||| (if rw then FLAG_READS_WRITES else 0) |||
  (if i then FLAG_INSTRS else 0) ||| (if s then FLAG_SYSCALLS else 0) |||
  (if b then FLAG_BRANCHES else 0)

/-- PC(f) accessor macro. -/
def hasPC (f : Nat) : Bool := f &&& FLAG_PC != 0
/-- READS_WRITES(f) accessor macro. -/
def hasRW (f : Nat) : Bool := f &&& FLAG_READS_WRITES != 0
/-- INSTRS(f) accessor macro. -/
def hasINSTRS (f : Nat) : Bool := f &&& FLAG_INSTRS != 0
/-- SYSCALLS(f) accessor macro. -/
def hasSYSCALLS (f : Nat) : Bool := f &&& FLAG_SYSCALLS != 0
/-- BRANCHES(f) accessor macro. -/
def hasBRANCHES (f : Nat) : Bool := f &&& FLAG_BRANCHES != 0

/-- BRANCHONLY(f): branches are traced but no other per-instruction feature. -/
def branchOnly (f : Nat) : Bool :=
  hasBRANCHES f && !hasPC f && !hasRW f && !hasINSTRS f

/-- NOINSN(f): no per-instruction feature at all. -/
def noInsn (f : Nat) : Bool :=
  !hasPC f && !hasRW f && !hasINSTRS f && !hasBRANCHES f

/-! ## Event model

`QemuEventMsg` is the tagged event record of the plugin client header: a flag
word plus a tagged payload (`Pc`, `Instr`, `MemAccess`, `Syscall`, `Load`),
with the field shapes visible at every use site in `callback.c`. -/

inductive EventBody where
  | pcEvt (pc : Nat) (branch : Bool)
  | instrEvt (pc : Nat) (opcode : List Nat) (opcode_size : Nat)
  | memAccessEvt (pc : Nat) (addr : Nat) (is_write : Bool)
  | syscallEvt (num : Int) (rv : Int) (args : List Nat)
  | loadEvt (lmin : Nat) (lmax : Nat) (entry : Nat) (prot : Nat)
  deriving DecidableEq, Repr

structure QemuEventMsg where
  flags : Nat
  event : EventBody
  deriving DecidableEq, Repr

/-- Wrapper around a memory event: `QemuEventMsgMemWrapper` with the two
assembly booleans. -/
structure MemWrapper where
  msg : QemuEventMsg
  mem : Bool
  exec : Bool
  deriving DecidableEq, Repr

/-- The message built by `newpc` (calloc zeroes the flags, then SETPC). -/
def newpcMsg (pc : Nat) (branch : Bool) : QemuEventMsg :=
  { flags := FLAG_PC, event := .pcEvt pc branch }

/-- The message built by `newinstr`: copies `opcode_size` bytes of opcode. -/
def newinstrMsg (pc : Nat) (data : List Nat) (opcode_size : Nat) : QemuEventMsg :=
  { flags := FLAG_INSTRS, event := .instrEvt pc (data.take opcode_size) opcode_size }

/-- The wrapper built by `newmemaccess`: both assembly booleans start false. -/
def newmemaccessWrapper (pc : Nat) (addr : Nat) (is_write : Bool) : MemWrapper :=
  { msg := { flags := FLAG_READS_WRITES, event := .memAccessEvt pc addr is_write },
    mem := false, exec := false }

/-- The record built by `newsyscall`: `rv` is the -1 placeholder. -/
def newsyscallMsg (num : Int) (args : List Nat) : QemuEventMsg :=
  { flags := FLAG_SYSCALLS, event := .syscallEvt num (-1) args }

/-- The record built by `newload`. -/
def newloadMsg (lmin lmax entry : Nat) (prot : Nat) : QemuEventMsg :=
  { flags := FLAG_LOAD, event := .loadEvt lmin lmax entry prot }

/-- Memory-callback registration mask (`QEMU_PLUGIN_MEM_R` / `_W` / `_RW`). -/
inductive MemMask where
  | r
  | w
  | rw
  deriving DecidableEq, Repr

/-- Host contract for `register_mem_cb`: whether an access (with the given
is-store direction) is covered by the registered mask. -/
def maskAllows : MemMask → Bool → Bool
  | .r, is_store => !is_store
  | .w, is_store => is_store
  | .rw, _ => true

/-! ## Registry tables

`GHashTable` with pointer identity keys and at most one value per key,
modelled as an association list over abstract ids.  `g_hash_table_insert`
and `g_hash_table_replace` both leave one entry for the key;
`g_hash_table_remove` on an absent key is a no-op. -/

def tlookup {α : Type} (l : List (Nat × α)) (k : Nat) : Option α :=
  (l.find? (fun p => p.1 == k)).map (fun p => p.2)

def tinsert {α : Type} (l : List (Nat × α)) (k : Nat) (v : α) : List (Nat × α) :=
  (k, v) :: l.filter (fun p => p.1 != k)

def tremove {α : Type} (l : List (Nat × α)) (k : Nat) : List (Nat × α) :=
  l.filter (fun p => p.1 != k)

/-! ## Host model and plugin state -/

/-- One guest instruction as the host exposes it: `insn.vaddr()` and
`insn.data()` (with `insn.size()` the length of the data). -/
structure Insn where
  vaddr : Nat
  data : List Nat
  deriving DecidableEq, Repr

/-- Host process constants: `qemu_plugin_start_code` / `end_code` / `entry_code`. -/
structure Host where
  start_code : Nat
  end_code : Nat
  entry_code : Nat
  deriving DecidableEq, Repr

/-- One `submit(sender, msg)` call: the id of the registered record it
references (none for the never-registered load record) and the message sent. -/
structure SubmitEntry where
  ref : Option Nat
  msg : QemuEventMsg
  deriving DecidableEq, Repr

/-- The plugin's global state: the three registries with their contents, the
cached program-info words, the registered per-instruction hooks, the sender's
submit log, and the allocation counter producing fresh record ids. -/
structure PState where
  events : List (Nat × QemuEventMsg)
  memEvents : List (Nat × MemWrapper)
  syscalls : List (Nat × (Nat × QemuEventMsg))
  startCode : Nat
  endCode : Nat
  entryCode : Nat
  execHooks : List Nat
  memExecHooks : List Nat
  memHooks : List (Nat × MemMask)
  log : List SubmitEntry
  nextId : Nat
  deriving DecidableEq, Repr

def initState : PState :=
  { events := [], memEvents := [], syscalls := [],
    startCode := 0, endCode := 0, entryCode := 0,
    execHooks := [], memExecHooks := [], memHooks := [],
    log := [], nextId := 0 }

/-! ## Run-time callbacks (src/plugin/src/callback.c) -/

/-- callback_on_insn_exec: look the record up by its pointer; on a hit submit
it and remove it, on a miss do nothing. -/
def callback_on_insn_exec (s : PState) (idv : Nat) : PState :=
  match tlookup s.events idv with
  | some msg =>
      { s with log := s.log ++ [⟨some idv, msg⟩], events := tremove s.events idv }
  | none => s

/-- callback_on_insn_exec_mem: flip `exec`; if both booleans are now set,
submit the inner message and remove the wrapper. -/
def callback_on_insn_exec_mem (s : PState) (idv : Nat) : PState :=
  match tlookup s.memEvents idv with
  | some w =>
      let w2 := { w with exec := true }
      if w2.mem && w2.exec then
        { s with log := s.log ++ [⟨some idv, w2.msg⟩],
                 memEvents := tremove s.memEvents idv }
      else
        { s with memEvents := tinsert s.memEvents idv w2 }
  | none => s

/-- Write the union fields `mem_access.addr` and `mem_access.is_write`. -/
def setMemAddr (m : QemuEventMsg) (addr : Nat) (is_write : Bool) : QemuEventMsg :=
  match m.event with
  | .memAccessEvt pc _ _ => { m with event := .memAccessEvt pc addr is_write }
  | e => { m with event := e }

/-- callback_on_mem_access: flip `mem`, record the access address and the
host's is-store predicate; if both booleans are now set, submit and remove. -/
def callback_on_mem_access (s : PState) (idv : Nat) (vaddr : Nat)
    (is_store : Bool) : PState :=
  match tlookup s.memEvents idv with
  | some w =>
      let w2 := { w with mem := true, msg := setMemAddr w.msg vaddr is_store }
      if w2.mem && w2.exec then
        { s with log := s.log ++ [⟨some idv, w2.msg⟩],
                 memEvents := tremove s.memEvents idv }
      else
        { s with memEvents := tinsert s.memEvents idv w2 }
  | none => s

/-- Read the union field `syscall.num`. -/
def syscallNum (m : QemuEventMsg) : Int :=
  match m.event with
  | .syscallEvt num _ _ => num
  | _ => 0

/-- Write the union field `syscall.rv`. -/
def setSyscallRv (m : QemuEventMsg) (ret : Int) : QemuEventMsg :=
  match m.event with
  | .syscallEvt num _ args => { m with event := .syscallEvt num ret args }
  | e => { m with event := e }

/-- callback_on_syscall: `newsyscall` allocates a fresh record with the
placeholder return value and `g_hash_table_replace`s it into the per-vCPU
mapping, evicting any previous entry for that vCPU.  Nothing is submitted. -/
def callback_on_syscall (s : PState) (vcpu : Nat) (num : Int)
    (a1 a2 a3 a4 a5 a6 a7 a8 : Nat) : PState :=
  let idv := s.nextId
  { s with
    syscalls := tinsert s.syscalls vcpu (idv, newsyscallMsg num [a1, a2, a3, a4, a5, a6, a7, a8]),
    nextId := idv + 1 }

/-- callback_after_syscall: look up by vCPU; if present with a matching
number, set `rv` and submit; then remove the vCPU's entry unconditionally
(removal of an absent key is a no-op). -/
def callback_after_syscall (s : PState) (vcpu : Nat) (num : Int)
    (ret : Int) : PState :=
  match tlookup s.syscalls vcpu with
  | some p =>
      if syscallNum p.2 == num then
        { s with log := s.log ++ [⟨some p.1, setSyscallRv p.2 ret⟩],
                 syscalls := tremove s.syscalls vcpu }
      else
        { s with syscalls := tremove s.syscalls vcpu }
  | none => s

/-! ## Translation callback (src/plugin/src/callback.c, callback_on_tb_trans) -/

/-- One more than SIZE_MAX: `num_insns` and the loop counter are `size_t`. -/
def SIZE_MAX_SUCC : Nat := 2 ^ 64

/-- The loop initializer `num_insns - 1` in `size_t` arithmetic (wraps to
SIZE_MAX when `num_insns` is zero). -/
def branchOnlyStart (n : Nat) : Nat := (n + (SIZE_MAX_SUCC - 1)) % SIZE_MAX_SUCC

/-- Indices visited by `for (size_t i = BRANCHONLY(flags) ? num_insns - 1 : 0;
i < num_insns; i++)`. -/
def loopIndices (bonly : Bool) (n : Nat) : List Nat :=
  let start := if bonly then branchOnlyStart n else 0
  List.range' start (n - start)

/-- PC block of the translation loop body: `newpc` (allocate, tag, insert into
the exec registry) plus `qemu_plugin_register_vcpu_insn_exec_cb` with the
record's address as user data. -/
def regPcRecord (s : PState) (pc : Nat) (branch : Bool) : PState :=
  { s with events := tinsert s.events s.nextId (newpcMsg pc branch),
           execHooks := s.execHooks ++ [s.nextId],
           nextId := s.nextId + 1 }

/-- INSTRS block of the translation loop body: `newinstr` plus an execution
hook. -/
def regInstrRecord (s : PState) (pc : Nat) (data : List Nat) : PState :=
  { s with events := tinsert s.events s.nextId (newinstrMsg pc data data.length),
           execHooks := s.execHooks ++ [s.nextId],
           nextId := s.nextId + 1 }

/-- READS_WRITES block of the translation loop body: `newmemaccess` (zeroed
address, not-a-write) plus a memory hook registered with mask
`QEMU_PLUGIN_MEM_R` and a separate execution hook, both carrying the wrapper
address. -/
def regMemRecord (s : PState) (pc : Nat) : PState :=
  { s with memEvents := tinsert s.memEvents s.nextId (newmemaccessWrapper pc 0 false),
           memHooks := s.memHooks ++ [(s.nextId, MemMask.r)],
           memExecHooks := s.memExecHooks ++ [s.nextId],
           nextId := s.nextId + 1 }

/-- Body of the translation loop for instruction index `i`: allocate and
register a record plus hook per configured feature, in source order. -/
def tbTransInsn (f : Nat) (b : List Insn) (s : PState) (i : Nat) : PState :=
  let insn := b.getD i ⟨0, []⟩
  let pc := insn.vaddr
  let s1 := if hasPC f then regPcRecord s pc (i == b.length - 1) else s
  let s2 := if hasINSTRS f then regInstrRecord s1 pc insn.data else s1
  if hasRW f then regMemRecord s2 pc else s2

/-- Head of the translation callback: on the first translation (the cached
`start_code` is still zero) fetch the code-range triple and submit a `Load`
record with constant protection 0x7; the record is never registered. -/
def tbTransLoad (host : Host) (s : PState) : PState :=
  if s.startCode == 0 then
    { s with startCode := host.start_code, endCode := host.end_code,
             entryCode := host.entry_code,
             log := s.log ++ [⟨none, newloadMsg host.start_code host.end_code host.entry_code 7⟩] }
  else s

/-- callback_on_tb_trans: emit the one-shot load record, then loop over the
block's instructions. -/
def callback_on_tb_trans (f : Nat) (host : Host) (b : List Insn) (s : PState) : PState :=
  (loopIndices (branchOnly f) b.length).foldl (tbTransInsn f b) (tbTransLoad host s)

/-! ## Host-driven execution -/

/-- One host-initiated callback invocation. -/
inductive Action where
  | tbTrans (b : List Insn)
  | insnExec (idv : Nat)
  | insnExecMem (idv : Nat)
  | memAccess (idv : Nat) (vaddr : Nat) (is_store : Bool)
  | sysEnter (vcpu : Nat) (num : Int) (a1 a2 a3 a4 a5 a6 a7 a8 : Nat)
  | sysRet (vcpu : Nat) (num : Int) (ret : Int)
  deriving DecidableEq, Repr

def step (f : Nat) (host : Host) (s : PState) : Action → PState
  | .tbTrans b => callback_on_tb_trans f host b s
  | .insnExec idv => callback_on_insn_exec s idv
  | .insnExecMem idv => callback_on_insn_exec_mem s idv
  | .memAccess idv vaddr is_store => callback_on_mem_access s idv vaddr is_store
  | .sysEnter vcpu num a1 a2 a3 a4 a5 a6 a7 a8 =>
      callback_on_syscall s vcpu num a1 a2 a3 a4 a5 a6 a7 a8
  | .sysRet vcpu num ret => callback_after_syscall s vcpu num ret

def run (f : Nat) (host : Host) (s : PState) : List Action → PState
  | [] => s
  | a :: rest => run f host (step f host s a) rest

/-- Host contract: a callback only fires if it was registered.  The
translation callback is registered only when some per-instruction feature is
configured; execution and memory hooks only fire with a user-data pointer
they were registered with, and a memory hook only fires for accesses covered
by its registration mask; syscall callbacks only fire when configured. -/
def validAction (f : Nat) (s : PState) : Action → Bool
  | .tbTrans b => !noInsn f && decide (b.length < SIZE_MAX_SUCC)
  | .insnExec idv => s.execHooks.contains idv
  | .insnExecMem idv => s.memExecHooks.contains idv
  | .memAccess idv _ is_store =>
      s.memHooks.any (fun p => p.1 == idv && maskAllows p.2 is_store)
  | .sysEnter _ _ _ _ _ _ _ _ _ _ => hasSYSCALLS f
  | .sysRet _ _ _ => hasSYSCALLS f

def validTrace (f : Nat) (host : Host) (s : PState) : List Action → Bool
  | [] => true
  | a :: rest => validAction f s a && validTrace f host (step f host s a) rest

/-! ## Entry classification helpers for the statements -/

/-- Whether a submitted message is the one-shot load record. -/
def isLoadMsg (m : QemuEventMsg) : Bool :=
  match m.event with
  | .loadEvt _ _ _ _ => true
  | _ => false

/-- Whether a submitted message is a per-instruction event (`Pc`, `Instr` or
`MemAccess`). -/
def isPerInsnMsg (m : QemuEventMsg) : Bool :=
  match m.event with
  | .pcEvt _ _ => true
  | .instrEvt _ _ _ => true
  | .memAccessEvt _ _ _ => true
  | _ => false

/-- Whether a submitted message is a memory-access event. -/
def isMemMsg (m : QemuEventMsg) : Bool :=
  match m.event with
  | .memAccessEvt _ _ _ => true
  | _ => false

/-- Whether a message is one the exec-only registry holds (`Pc` or `Instr`). -/
def isExecTableMsg (m : QemuEventMsg) : Bool :=
  match m.event with
  | .pcEvt _ _ => true
  | .instrEvt _ _ _ => true
  | _ => false

/-- Whether a submitted message is a syscall event. -/
def isSysMsg (m : QemuEventMsg) : Bool :=
  match m.event with
  | .syscallEvt _ _ _ => true
  | _ => false

/-- Read the union field `syscall.rv`. -/
def syscallRv (m : QemuEventMsg) : Int :=
  match m.event with
  | .syscallEvt _ rv _ => rv
  | _ => 0

/-- The ids referenced by submit calls in a log. -/
def logRefs (l : List SubmitEntry) : List Nat := l.filterMap (fun e => e.ref)

/-- The ids of all records currently held by the three registries. -/
def tableIds (s : PState) : List Nat :=
  s.events.map (fun p => p.1) ++ s.memEvents.map (fun p => p.1) ++
    s.syscalls.map (fun p => p.2.1)

/-- The trace contains a memory-access callback carrying record `idv`. -/
def memAccessIn (acts : List Action) (idv : Nat) : Prop :=
  ∃ v st, Action.memAccess idv v st ∈ acts

/-- The trace contains an execution callback carrying memory record `idv`. -/
def execMemIn (acts : List Action) (idv : Nat) : Prop :=
  Action.insnExecMem idv ∈ acts

/-- The log contains a submit of memory record `idv`. -/
def memSubmitted (l : List SubmitEntry) (idv : Nat) : Prop :=
  ∃ e ∈ l, e.ref = some idv ∧ isMemMsg e.msg = true

/-! ## The older implementation's syscall path (src/src/callback.c)

That variant keeps a single global in-flight syscall record (`syscall_evt`)
instead of a per-vCPU mapping.  Its full event record `QemuEventExec` is the
product struct from `cannonball-client/ffi/fodder-client.h`; `calloc` zeroes
every field. -/

structure QemuEventExec where
  flags : Nat
  pc : Nat
  opcode : List Nat
  opcode_size : Nat
  read_addr : Nat
  write_addr : Nat
  sys_num : Int
  sys_rv : Int
  sys_args : List Nat
  branch : Bool
  deriving DecidableEq, Repr

/-- A freshly calloc'd `QemuEventExec`. -/
def zeroEventExec : QemuEventExec :=
  { flags := 0, pc := 0, opcode := List.replicate 16 0, opcode_size := 0,
    read_addr := 0, write_addr := 0, sys_num := 0, sys_rv := 0,
    sys_args := List.replicate 8 0, branch := false }

/-- State touched by the older implementation's syscall-return callback: the
global slot, the submit log, and the number of `log_error` calls issued. -/
structure SrcSyscallState where
  syscall_evt : Option QemuEventExec
  log : List QemuEventExec
  errors : Nat
  deriving DecidableEq, Repr

/-- callback_after_syscall of src/src/callback.c: if no record is in flight a
fresh zeroed one is allocated and the function falls through to set
SYSCALLS, write `rv`, and submit it; a number mismatch logs an error and
frees the stale record without submitting; otherwise the in-flight record is
completed and submitted. -/
def src_callback_after_syscall (s : SrcSyscallState) (num ret : Int) : SrcSyscallState :=
  match s.syscall_evt with
  | none =>
      let evt := zeroEventExec
      let evt2 := { evt with flags := evt.flags ||| FLAG_SYSCALLS, sys_rv := ret }
      { s with syscall_evt := none, log := s.log ++ [evt2] }
  | some evt =>
      if evt.sys_num != num then
        { s with syscall_evt := none, errors := s.errors + 1 }
      else
        let evt2 := { evt with flags := evt.flags ||| FLAG_SYSCALLS, sys_rv := ret }
        { s with syscall_evt := none, log := s.log ++ [evt2] }

/-! ## Association-list lemmas -/

def keys {α : Type} (l : List (Nat × α)) : List Nat := l.map (fun p => p.1)

/-- The ids of the in-flight syscall records (the values' allocation ids; the
mapping itself is keyed by vCPU index). -/
def sysIds (s : PState) : List Nat := s.syscalls.map (fun p => p.2.1)

theorem map_fst_filter_ne {α : Type} (l : List (Nat × α)) (k : Nat) :
    (l.filter (fun p => p.1 != k)).map (fun p => p.1)
      = (l.map (fun p => p.1)).filter (fun x => x != k) := by
  induction l with
  | nil => rfl
  | cons a t ih =>
      by_cases h : a.1 = k
      · simp [List.filter_cons, h, ih]
      · simp [List.filter_cons, h, ih]

theorem keys_tinsert {α : Type} (l : List (Nat × α)) (k : Nat) (v : α) :
    keys (tinsert l k v) = k :: (keys l).filter (fun x => x != k) := by
  simp [keys, tinsert, map_fst_filter_ne]

theorem keys_tremove {α : Type} (l : List (Nat × α)) (k : Nat) :
    keys (tremove l k) = (keys l).filter (fun x => x != k) := by
  simp [keys, tremove, map_fst_filter_ne]

theorem mem_filter_ne {l : List Nat} {i k : Nat}
    (h : i ∈ l.filter (fun x => x != k)) : i ∈ l :=
  (List.mem_filter.mp h).1

theorem ne_of_mem_filter_ne {l : List Nat} {i k : Nat}
    (h : i ∈ l.filter (fun x => x != k)) : i ≠ k := by
  have := (List.mem_filter.mp h).2
  simpa using this

theorem not_mem_filter_self {l : List Nat} {k : Nat} :
    k ∉ l.filter (fun x => x != k) := fun h => ne_of_mem_filter_ne h rfl

theorem filter_ne_eq_self_of_not_mem {l : List Nat} {k : Nat} (h : k ∉ l) :
    l.filter (fun x => x != k) = l := by
  apply List.filter_eq_self.mpr
  intro a ha
  simp only [ne_eq, bne_iff_ne]
  exact fun hak => h (hak ▸ ha)

theorem nodup_filter_ne {l : List Nat} {k : Nat} (h : l.Nodup) :
    (l.filter (fun x => x != k)).Nodup := h.filter _

theorem tlookup_mem {α : Type} {l : List (Nat × α)} {k : Nat} {v : α}
    (h : tlookup l k = some v) : (k, v) ∈ l := by
  unfold tlookup at h
  cases hf : l.find? (fun p => p.1 == k) with
  | none => rw [hf] at h; exact absurd h (by simp)
  | some p =>
      rw [hf] at h
      obtain ⟨p1, p2⟩ := p
      have hk : p1 = k := by simpa using List.find?_some hf
      have hv : p2 = v := by simpa using h
      subst hk
      subst hv
      exact List.mem_of_find?_eq_some hf

theorem mem_keys_of_tlookup {α : Type} {l : List (Nat × α)} {k : Nat} {v : α}
    (h : tlookup l k = some v) : k ∈ keys l := by
  have := tlookup_mem h
  exact List.mem_map.mpr ⟨(k, v), this, rfl⟩

theorem logRefs_append_some (l : List SubmitEntry) (k : Nat) (m : QemuEventMsg) :
    logRefs (l ++ [⟨some k, m⟩]) = logRefs l ++ [k] := by
  simp [logRefs, List.filterMap_append]

theorem logRefs_append_none (l : List SubmitEntry) (m : QemuEventMsg) :
    logRefs (l ++ [⟨none, m⟩]) = logRefs l := by
  simp [logRefs, List.filterMap_append]

theorem sysIds_tinsert (s : PState) (vcpu k : Nat) (m : QemuEventMsg) :
    (tinsert s.syscalls vcpu (k, m)).map (fun p => p.2.1)
      = k :: (s.syscalls.filter (fun p => p.1 != vcpu)).map (fun p => p.2.1) := by
  simp [tinsert]

theorem sysIds_filter_subset (l : List (Nat × (Nat × QemuEventMsg))) (vcpu : Nat) :
    ∀ i ∈ (l.filter (fun p => p.1 != vcpu)).map (fun p => p.2.1),
      i ∈ l.map (fun p => p.2.1) := by
  intro i hi
  exact ((List.filter_sublist l).map (fun p => p.2.1)).mem hi

/-! ## At-most-once submission invariant -/

/-- Core registry/sender invariant: ids held by the registries and ids already
referenced by submit calls are below the allocation counter, no id is
referenced by two submit calls, the three registries never share an id, and an
id already submitted is in no registry. -/
structure Inv (s : PState) : Prop where
  boundE : ∀ i ∈ keys s.events, i < s.nextId
  boundM : ∀ i ∈ keys s.memEvents, i < s.nextId
  boundS : ∀ i ∈ sysIds s, i < s.nextId
  boundL : ∀ i ∈ logRefs s.log, i < s.nextId
  nodupL : (logRefs s.log).Nodup
  nodupS : (sysIds s).Nodup
  disjEM : ∀ i ∈ keys s.events, i ∉ keys s.memEvents
  disjES : ∀ i ∈ keys s.events, i ∉ sysIds s
  disjMS : ∀ i ∈ keys s.memEvents, i ∉ sysIds s
  disjLE : ∀ i ∈ logRefs s.log, i ∉ keys s.events
  disjLM : ∀ i ∈ logRefs s.log, i ∉ keys s.memEvents
  disjLS : ∀ i ∈ logRefs s.log, i ∉ sysIds s

theorem inv_init : Inv initState := by
  constructor <;> simp [initState, keys, sysIds, logRefs]

theorem nodup_append_singleton {l : List Nat} {k : Nat} (h1 : l.Nodup)
    (h2 : k ∉ l) : (l ++ [k]).Nodup := by
  rw [List.nodup_append]
  refine ⟨h1, List.nodup_singleton k, ?_⟩
  intro a ha hb
  simp only [List.mem_singleton] at hb
  exact h2 (hb ▸ ha)

theorem not_mem_sysIds_tremove {l : List (Nat × (Nat × QemuEventMsg))}
    {vcpu k : Nat} {m : QemuEventMsg}
    (hnd : (l.map (fun p => p.2.1)).Nodup) (hmem : (vcpu, (k, m)) ∈ l) :
    k ∉ (l.filter (fun p => p.1 != vcpu)).map (fun p => p.2.1) := by
  induction l with
  | nil => simp at hmem
  | cons a t ih =>
      have hnd2 : (t.map (fun p => p.2.1)).Nodup := (List.nodup_cons.mp hnd).2
      have hhead : a.2.1 ∉ t.map (fun p => p.2.1) := (List.nodup_cons.mp hnd).1
      rcases List.mem_cons.mp hmem with heq | hmem2
      · subst heq
        simp only [List.filter_cons, bne_self_eq_false, Bool.false_eq_true, if_false]
        intro hc
        rcases List.mem_map.mp hc with ⟨e, he, hek⟩
        exact hhead (List.mem_map.mpr ⟨e, (List.mem_filter.mp he).1, hek⟩)
      · have hk_in_t : k ∈ t.map (fun p => p.2.1) :=
          List.mem_map.mpr ⟨(vcpu, (k, m)), hmem2, rfl⟩
        by_cases ha : a.1 = vcpu
        · simp only [List.filter_cons, ha, bne_self_eq_false, Bool.false_eq_true, if_false]
          exact ih hnd2 hmem2
        · have hab : (a.1 != vcpu) = true := by simpa using ha
          simp only [List.filter_cons, hab, if_true, List.map_cons, List.mem_cons]
          intro hc
          rcases hc with hc1 | hc2
          · exact hhead (hc1 ▸ hk_in_t)
          · exact ih hnd2 hmem2 hc2

/-- Submitting and removing a record of the exec registry keeps the invariant. -/
theorem inv_events_submit {s : PState} (h : Inv s) {idv : Nat}
    (hkE : idv ∈ keys s.events) (m : QemuEventMsg) :
    Inv { s with log := s.log ++ [⟨some idv, m⟩], events := tremove s.events idv } := by
  have hnotL : idv ∉ logRefs s.log := fun hc => h.disjLE idv hc hkE
  refine ⟨?_, ?_, ?_, ?_, ?_, ?_, ?_, ?_, ?_, ?_, ?_, ?_⟩ <;> dsimp only
  · rw [keys_tremove]; intro i hi; exact h.boundE i (mem_filter_ne hi)
  · exact h.boundM
  · exact h.boundS
  · rw [logRefs_append_some]
    intro i hi
    rcases List.mem_append.mp hi with hi1 | hi2
    · exact h.boundL i hi1
    · simp only [List.mem_singleton] at hi2; exact hi2 ▸ h.boundE idv hkE
  · rw [logRefs_append_some]; exact nodup_append_singleton h.nodupL hnotL
  · exact h.nodupS
  · rw [keys_tremove]; intro i hi; exact h.disjEM i (mem_filter_ne hi)
  · rw [keys_tremove]; intro i hi; exact h.disjES i (mem_filter_ne hi)
  · exact h.disjMS
  · rw [logRefs_append_some, keys_tremove]
    intro i hi
    rcases List.mem_append.mp hi with hi1 | hi2
    · exact fun hc => h.disjLE i hi1 (mem_filter_ne hc)
    · simp only [List.mem_singleton] at hi2; exact hi2 ▸ not_mem_filter_self
  · rw [logRefs_append_some]
    intro i hi
    rcases List.mem_append.mp hi with hi1 | hi2
    · exact h.disjLM i hi1
    · simp only [List.mem_singleton] at hi2; exact hi2 ▸ h.disjEM idv hkE
  · rw [logRefs_append_some]
    intro i hi
    rcases List.mem_append.mp hi with hi1 | hi2
    · exact h.disjLS i hi1
    · simp only [List.mem_singleton] at hi2; exact hi2 ▸ h.disjES idv hkE

/-- Submitting and removing a record of the memory registry keeps the invariant. -/
theorem inv_mem_submit {s : PState} (h : Inv s) {idv : Nat}
    (hkM : idv ∈ keys s.memEvents) (m : QemuEventMsg) :
    Inv { s with log := s.log ++ [⟨some idv, m⟩],
                 memEvents := tremove s.memEvents idv } := by
  have hnotL : idv ∉ logRefs s.log := fun hc => h.disjLM idv hc hkM
  refine ⟨?_, ?_, ?_, ?_, ?_, ?_, ?_, ?_, ?_, ?_, ?_, ?_⟩ <;> dsimp only
  · exact h.boundE
  · rw [keys_tremove]; intro i hi; exact h.boundM i (mem_filter_ne hi)
  · exact h.boundS
  · rw [logRefs_append_some]
    intro i hi
    rcases List.mem_append.mp hi with hi1 | hi2
    · exact h.boundL i hi1
    · simp only [List.mem_singleton] at hi2; exact hi2 ▸ h.boundM idv hkM
  · rw [logRefs_append_some]; exact nodup_append_singleton h.nodupL hnotL
  · exact h.nodupS
  · rw [keys_tremove]; intro i hi hc; exact h.disjEM i hi (mem_filter_ne hc)
  · exact h.disjES
  · rw [keys_tremove]; intro i hi; exact h.disjMS i (mem_filter_ne hi)
  · rw [logRefs_append_some]
    intro i hi
    rcases List.mem_append.mp hi with hi1 | hi2
    · exact h.disjLE i hi1
    · simp only [List.mem_singleton] at hi2
      exact hi2 ▸ fun hc => h.disjEM idv hc hkM
  · rw [logRefs_append_some, keys_tremove]
    intro i hi
    rcases List.mem_append.mp hi with hi1 | hi2
    · exact fun hc => h.disjLM i hi1 (mem_filter_ne hc)
    · simp only [List.mem_singleton] at hi2; exact hi2 ▸ not_mem_filter_self
  · rw [logRefs_append_some]
    intro i hi
    rcases List.mem_append.mp hi with hi1 | hi2
    · exact h.disjLS i hi1
    · simp only [List.mem_singleton] at hi2; exact hi2 ▸ h.disjMS idv hkM

/-- Updating in place a wrapper already held by the memory registry keeps the
invariant. -/
theorem inv_mem_update {s : PState} (h : Inv s) {idv : Nat}
    (hkM : idv ∈ keys s.memEvents) (w : MemWrapper) :
    Inv { s with memEvents := tinsert s.memEvents idv w } := by
  refine ⟨?_, ?_, ?_, ?_, ?_, ?_, ?_, ?_, ?_, ?_, ?_, ?_⟩ <;> dsimp only
  · exact h.boundE
  · rw [keys_tinsert]
    intro i hi
    rcases List.mem_cons.mp hi with h3 | hi2
    · exact h3 ▸ h.boundM idv hkM
    · exact h.boundM i (mem_filter_ne hi2)
  · exact h.boundS
  · exact h.boundL
  · exact h.nodupL
  · exact h.nodupS
  · rw [keys_tinsert]
    intro i hi hc
    rcases List.mem_cons.mp hc with h3 | hc2
    · exact h.disjEM i hi (h3 ▸ hkM)
    · exact h.disjEM i hi (mem_filter_ne hc2)
  · exact h.disjES
  · rw [keys_tinsert]
    intro i hi
    rcases List.mem_cons.mp hi with h3 | hi2
    · exact h3 ▸ h.disjMS idv hkM
    · exact h.disjMS i (mem_filter_ne hi2)
  · exact h.disjLE
  · rw [keys_tinsert]
    intro i hi hc
    rcases List.mem_cons.mp hc with h3 | hc2
    · exact h.disjLM i hi (h3 ▸ hkM)
    · exact h.disjLM i hi (mem_filter_ne hc2)
  · exact h.disjLS

theorem inv_insn_exec {s : PState} (h : Inv s) (idv : Nat) :
    Inv (callback_on_insn_exec s idv) := by
  unfold callback_on_insn_exec
  cases hl : tlookup s.events idv with
  | none => exact h
  | some msg => exact inv_events_submit h (mem_keys_of_tlookup hl) msg

theorem inv_insn_exec_mem {s : PState} (h : Inv s) (idv : Nat) :
    Inv (callback_on_insn_exec_mem s idv) := by
  unfold callback_on_insn_exec_mem
  cases hl : tlookup s.memEvents idv with
  | none => exact h
  | some w =>
      have hkM := mem_keys_of_tlookup hl
      dsimp only
      by_cases hm : ({ w with exec := true } : MemWrapper).mem && true
      · rw [if_pos hm]; exact inv_mem_submit h hkM _
      · rw [if_neg hm]; exact inv_mem_update h hkM _

theorem inv_mem_access {s : PState} (h : Inv s) (idv vaddr : Nat) (is_store : Bool) :
    Inv (callback_on_mem_access s idv vaddr is_store) := by
  unfold callback_on_mem_access
  cases hl : tlookup s.memEvents idv with
  | none => exact h
  | some w =>
      have hkM := mem_keys_of_tlookup hl
      dsimp only
      by_cases hm : true && ({ w with mem := true, msg := setMemAddr w.msg vaddr is_store } : MemWrapper).exec
      · rw [if_pos hm]; exact inv_mem_submit h hkM _
      · rw [if_neg hm]; exact inv_mem_update h hkM _

theorem inv_on_syscall {s : PState} (h : Inv s) (vcpu : Nat) (num : Int)
    (a1 a2 a3 a4 a5 a6 a7 a8 : Nat) :
    Inv (callback_on_syscall s vcpu num a1 a2 a3 a4 a5 a6 a7 a8) := by
  unfold callback_on_syscall
  dsimp only
  refine ⟨?_, ?_, ?_, ?_, ?_, ?_, ?_, ?_, ?_, ?_, ?_, ?_⟩ <;> dsimp only [sysIds]
  · intro i hi; exact Nat.lt_succ_of_lt (h.boundE i hi)
  · intro i hi; exact Nat.lt_succ_of_lt (h.boundM i hi)
  · rw [sysIds_tinsert]
    intro i hi
    rcases List.mem_cons.mp hi with h3 | hi2
    · exact h3 ▸ Nat.lt_succ_self _
    · exact Nat.lt_succ_of_lt (h.boundS i (sysIds_filter_subset _ _ i hi2))
  · intro i hi; exact Nat.lt_succ_of_lt (h.boundL i hi)
  · exact h.nodupL
  · rw [sysIds_tinsert]
    refine List.nodup_cons.mpr ⟨?_, ?_⟩
    · intro hc
      exact absurd (h.boundS _ (sysIds_filter_subset _ _ _ hc)) (Nat.lt_irrefl _)
    · exact h.nodupS.sublist ((List.filter_sublist _).map _)
  · exact h.disjEM
  · rw [sysIds_tinsert]
    intro i hi hc
    rcases List.mem_cons.mp hc with h3 | hc2
    · exact absurd (h3 ▸ h.boundE i hi) (Nat.lt_irrefl _)
    · exact h.disjES i hi (sysIds_filter_subset _ _ i hc2)
  · rw [sysIds_tinsert]
    intro i hi hc
    rcases List.mem_cons.mp hc with h3 | hc2
    · exact absurd (h3 ▸ h.boundM i hi) (Nat.lt_irrefl _)
    · exact h.disjMS i hi (sysIds_filter_subset _ _ i hc2)
  · exact h.disjLE
  · exact h.disjLM
  · rw [sysIds_tinsert]
    intro i hi hc
    rcases List.mem_cons.mp hc with h3 | hc2
    · exact absurd (h3 ▸ h.boundL i hi) (Nat.lt_irrefl _)
    · exact h.disjLS i hi (sysIds_filter_subset _ _ i hc2)

theorem inv_after_syscall {s : PState} (h : Inv s) (vcpu : Nat) (num ret : Int) :
    Inv (callback_after_syscall s vcpu num ret) := by
  unfold callback_after_syscall
  cases hl : tlookup s.syscalls vcpu with
  | none => exact h
  | some p =>
      obtain ⟨k, msg⟩ := p
      have hmem : (vcpu, (k, msg)) ∈ s.syscalls := tlookup_mem hl
      have hkS : k ∈ sysIds s := List.mem_map.mpr ⟨(vcpu, (k, msg)), hmem, rfl⟩
      have hrem : k ∉ (tremove s.syscalls vcpu).map (fun p => p.2.1) :=
        not_mem_sysIds_tremove h.nodupS hmem
      have hsub : ∀ i ∈ (tremove s.syscalls vcpu).map (fun p => p.2.1), i ∈ sysIds s :=
        fun i hi => sysIds_filter_subset _ _ i hi
      have hnotL : k ∉ logRefs s.log := fun hc => h.disjLS k hc hkS
      dsimp only
      by_cases hn : syscallNum msg == num
      · rw [if_pos hn]
        refine ⟨?_, ?_, ?_, ?_, ?_, ?_, ?_, ?_, ?_, ?_, ?_, ?_⟩ <;> dsimp only [sysIds]
        · exact h.boundE
        · exact h.boundM
        · intro i hi; exact h.boundS i (hsub i hi)
        · rw [logRefs_append_some]
          intro i hi
          rcases List.mem_append.mp hi with hi1 | hi2
          · exact h.boundL i hi1
          · simp only [List.mem_singleton] at hi2; exact hi2 ▸ h.boundS k hkS
        · rw [logRefs_append_some]; exact nodup_append_singleton h.nodupL hnotL
        · exact h.nodupS.sublist ((List.filter_sublist _).map _)
        · exact h.disjEM
        · intro i hi hc; exact h.disjES i hi (hsub i hc)
        · intro i hi hc; exact h.disjMS i hi (hsub i hc)
        · rw [logRefs_append_some]
          intro i hi
          rcases List.mem_append.mp hi with hi1 | hi2
          · exact h.disjLE i hi1
          · simp only [List.mem_singleton] at hi2
            exact hi2 ▸ fun hc => h.disjES k hc hkS
        · rw [logRefs_append_some]
          intro i hi
          rcases List.mem_append.mp hi with hi1 | hi2
          · exact h.disjLM i hi1
          · simp only [List.mem_singleton] at hi2
            exact hi2 ▸ fun hc => h.disjMS k hc hkS
        · rw [logRefs_append_some]
          intro i hi
          rcases List.mem_append.mp hi with hi1 | hi2
          · exact fun hc => h.disjLS i hi1 (hsub i hc)
          · simp only [List.mem_singleton] at hi2; exact hi2 ▸ hrem
      · rw [if_neg hn]
        refine ⟨?_, ?_, ?_, ?_, ?_, ?_, ?_, ?_, ?_, ?_, ?_, ?_⟩ <;> dsimp only [sysIds]
        · exact h.boundE
        · exact h.boundM
        · intro i hi; exact h.boundS i (hsub i hi)
        · exact h.boundL
        · exact h.nodupL
        · exact h.nodupS.sublist ((List.filter_sublist _).map _)
        · exact h.disjEM
        · intro i hi hc; exact h.disjES i hi (hsub i hc)
        · intro i hi hc; exact h.disjMS i hi (hsub i hc)
        · exact h.disjLE
        · exact h.disjLM
        · intro i hi hc; exact h.disjLS i hi (hsub i hc)

/-- Allocating and registering a fresh exec-registry record keeps the
invariant (the hook lists play no role in it). -/
theorem inv_insert_events {s : PState} (h : Inv s) (m : QemuEventMsg)
    (hk : List Nat) :
    Inv { s with events := tinsert s.events s.nextId m, execHooks := hk,
                 nextId := s.nextId + 1 } := by
  refine ⟨?_, ?_, ?_, ?_, ?_, ?_, ?_, ?_, ?_, ?_, ?_, ?_⟩ <;> dsimp only
  · rw [keys_tinsert]
    intro i hi
    rcases List.mem_cons.mp hi with h3 | hi2
    · exact h3 ▸ Nat.lt_succ_self _
    · exact Nat.lt_succ_of_lt (h.boundE i (mem_filter_ne hi2))
  · intro i hi; exact Nat.lt_succ_of_lt (h.boundM i hi)
  · intro i hi; exact Nat.lt_succ_of_lt (h.boundS i hi)
  · intro i hi; exact Nat.lt_succ_of_lt (h.boundL i hi)
  · exact h.nodupL
  · exact h.nodupS
  · rw [keys_tinsert]
    intro i hi
    rcases List.mem_cons.mp hi with h3 | hi2
    · exact h3 ▸ fun hc => absurd (h.boundM _ hc) (Nat.lt_irrefl _)
    · exact h.disjEM i (mem_filter_ne hi2)
  · rw [keys_tinsert]
    intro i hi
    rcases List.mem_cons.mp hi with h3 | hi2
    · subst h3; intro hc; exact absurd (h.boundS _ hc) (Nat.lt_irrefl _)
    · exact h.disjES i (mem_filter_ne hi2)
  · exact h.disjMS
  · rw [keys_tinsert]
    intro i hi hc
    rcases List.mem_cons.mp hc with h3 | hc2
    · exact absurd (h3 ▸ h.boundL i hi) (Nat.lt_irrefl _)
    · exact h.disjLE i hi (mem_filter_ne hc2)
  · exact h.disjLM
  · exact h.disjLS

/-- Allocating and registering a fresh memory-registry record keeps the
invariant. -/
theorem inv_insert_mem {s : PState} (h : Inv s) (w : MemWrapper)
    (hk1 : List Nat) (hk2 : List (Nat × MemMask)) :
    Inv { s with memEvents := tinsert s.memEvents s.nextId w,
                 memHooks := hk2, memExecHooks := hk1,
                 nextId := s.nextId + 1 } := by
  refine ⟨?_, ?_, ?_, ?_, ?_, ?_, ?_, ?_, ?_, ?_, ?_, ?_⟩ <;> dsimp only
  · intro i hi; exact Nat.lt_succ_of_lt (h.boundE i hi)
  · rw [keys_tinsert]
    intro i hi
    rcases List.mem_cons.mp hi with h3 | hi2
    · exact h3 ▸ Nat.lt_succ_self _
    · exact Nat.lt_succ_of_lt (h.boundM i (mem_filter_ne hi2))
  · intro i hi; exact Nat.lt_succ_of_lt (h.boundS i hi)
  · intro i hi; exact Nat.lt_succ_of_lt (h.boundL i hi)
  · exact h.nodupL
  · exact h.nodupS
  · rw [keys_tinsert]
    intro i hi hc
    rcases List.mem_cons.mp hc with h3 | hc2
    · exact absurd (h3 ▸ h.boundE i hi) (Nat.lt_irrefl _)
    · exact h.disjEM i hi (mem_filter_ne hc2)
  · exact h.disjES
  · rw [keys_tinsert]
    intro i hi
    rcases List.mem_cons.mp hi with h3 | hi2
    · subst h3; intro hc; exact absurd (h.boundS _ hc) (Nat.lt_irrefl _)
    · exact h.disjMS i (mem_filter_ne hi2)
  · exact h.disjLE
  · rw [keys_tinsert]
    intro i hi hc
    rcases List.mem_cons.mp hc with h3 | hc2
    · exact absurd (h3 ▸ h.boundL i hi) (Nat.lt_irrefl _)
    · exact h.disjLM i hi (mem_filter_ne hc2)
  · exact h.disjLS

theorem inv_regPc {s : PState} (h : Inv s) (pc : Nat) (branch : Bool) :
    Inv (regPcRecord s pc branch) := by
  unfold regPcRecord; exact inv_insert_events h _ _

theorem inv_regInstr {s : PState} (h : Inv s) (pc : Nat) (data : List Nat) :
    Inv (regInstrRecord s pc data) := by
  unfold regInstrRecord; exact inv_insert_events h _ _

theorem inv_regMem {s : PState} (h : Inv s) (pc : Nat) :
    Inv (regMemRecord s pc) := by
  unfold regMemRecord; exact inv_insert_mem h _ _ _

theorem inv_tbTransInsn {s : PState} (h : Inv s) (f : Nat) (b : List Insn)
    (i : Nat) : Inv (tbTransInsn f b s i) := by
  unfold tbTransInsn
  dsimp only
  split_ifs <;>
    first
      | exact h
      | exact inv_regPc h _ _
      | exact inv_regInstr h _ _
      | exact inv_regMem h _
      | exact inv_regMem (inv_regPc h _ _) _
      | exact inv_regMem (inv_regInstr h _ _) _
      | exact inv_regInstr (inv_regPc h _ _) _ _
      | exact inv_regMem (inv_regInstr (inv_regPc h _ _) _ _) _

theorem inv_tbTransLoad {s : PState} (h : Inv s) (host : Host) :
    Inv (tbTransLoad host s) := by
  unfold tbTransLoad
  by_cases hsc : s.startCode == 0
  · rw [if_pos hsc]
    refine ⟨?_, ?_, ?_, ?_, ?_, ?_, ?_, ?_, ?_, ?_, ?_, ?_⟩ <;> dsimp only
    · exact h.boundE
    · exact h.boundM
    · exact h.boundS
    · rw [logRefs_append_none]; exact h.boundL
    · rw [logRefs_append_none]; exact h.nodupL
    · exact h.nodupS
    · exact h.disjEM
    · exact h.disjES
    · exact h.disjMS
    · rw [logRefs_append_none]; exact h.disjLE
    · rw [logRefs_append_none]; exact h.disjLM
    · rw [logRefs_append_none]; exact h.disjLS
  · rw [if_neg hsc]; exact h

theorem inv_foldl_tbTransInsn (f : Nat) (b : List Insn) :
    ∀ (ixs : List Nat) (s : PState), Inv s → Inv (ixs.foldl (tbTransInsn f b) s)
  | [], _, h => h
  | i :: rest, s, h => inv_foldl_tbTransInsn f b rest _ (inv_tbTransInsn h f b i)

theorem inv_tb_trans {s : PState} (h : Inv s) (f : Nat) (host : Host)
    (b : List Insn) : Inv (callback_on_tb_trans f host b s) :=
  inv_foldl_tbTransInsn f b _ _ (inv_tbTransLoad h host)

theorem inv_step {s : PState} (h : Inv s) (f : Nat) (host : Host) (a : Action) :
    Inv (step f host s a) := by
  cases a with
  | tbTrans b => exact inv_tb_trans h f host b
  | insnExec idv => exact inv_insn_exec h idv
  | insnExecMem idv => exact inv_insn_exec_mem h idv
  | memAccess idv vaddr is_store => exact inv_mem_access h idv vaddr is_store
  | sysEnter vcpu num a1 a2 a3 a4 a5 a6 a7 a8 =>
      exact inv_on_syscall h vcpu num a1 a2 a3 a4 a5 a6 a7 a8
  | sysRet vcpu num ret => exact inv_after_syscall h vcpu num ret

theorem inv_run (f : Nat) (host : Host) :
    ∀ (acts : List Action) (s : PState), Inv s → Inv (run f host s acts)
  | [], _, h => h
  | a :: rest, s, h => inv_run f host rest _ (inv_step h f host a)

/-- The number of submit calls referencing a given id equals the multiplicity
of that id among the log's references. -/
theorem count_filter_ref (l : List SubmitEntry) (idv : Nat) :
    (l.filter (fun e => e.ref == some idv)).length = (logRefs l).count idv := by
  induction l with
  | nil => rfl
  | cons e t ih =>
      cases he : e.ref with
      | none =>
          simp only [logRefs, List.filterMap_cons, he, List.filter_cons]
          simp only [he, Option.none_beq_some, Bool.false_eq_true, if_false]
          simpa [logRefs] using ih
      | some k =>
          simp only [logRefs, List.filterMap_cons, he, List.filter_cons]
          by_cases hk : k = idv
          · subst hk
            simp only [he, beq_self_eq_true, if_true, List.length_cons,
              List.count_cons_self]
            simpa [logRefs] using congrArg Nat.succ ih
          · have h1 : (some k == some idv) = false := by simpa using hk
            simp only [h1, Bool.false_eq_true, if_false, List.count_cons,
              if_neg hk]
            simpa [logRefs, hk] using ih

/-- C1.  At-most-once submission: over any sequence of host callback
invocations started from the freshly initialized plugin, each registered
record id is referenced by at most one `submit` call — once a per-instruction
or memory record has been submitted and removed from its mapping, no later
execution or memory callback carrying the same pointer can submit it again. -/
theorem c1_at_most_once_submission (f : Nat) (host : Host) (acts : List Action)
    (idv : Nat) :
    ((run f host initState acts).log.filter (fun e => e.ref == some idv)).length ≤ 1 := by
  rw [count_filter_ref]
  exact List.nodup_iff_count_le_one.mp
    (inv_run f host acts initState inv_init).nodupL idv

/-! ## Projection lemmas: which state components each callback leaves alone -/

theorem syscalls_insn_exec (s : PState) (idv : Nat) :
    (callback_on_insn_exec s idv).syscalls = s.syscalls := by
  unfold callback_on_insn_exec; cases tlookup s.events idv <;> rfl

theorem syscalls_insn_exec_mem (s : PState) (idv : Nat) :
    (callback_on_insn_exec_mem s idv).syscalls = s.syscalls := by
  unfold callback_on_insn_exec_mem
  cases tlookup s.memEvents idv with
  | none => rfl
  | some w => dsimp only; split_ifs <;> rfl

theorem syscalls_mem_access (s : PState) (idv vaddr : Nat) (is_store : Bool) :
    (callback_on_mem_access s idv vaddr is_store).syscalls = s.syscalls := by
  unfold callback_on_mem_access
  cases tlookup s.memEvents idv with
  | none => rfl
  | some w => dsimp only; split_ifs <;> rfl

theorem syscalls_tbTransInsn (f : Nat) (b : List Insn) (s : PState) (i : Nat) :
    (tbTransInsn f b s i).syscalls = s.syscalls := by
  unfold tbTransInsn regPcRecord regInstrRecord regMemRecord
  dsimp only
  split_ifs <;> rfl

theorem syscalls_foldl_tbTransInsn (f : Nat) (b : List Insn) :
    ∀ (ixs : List Nat) (s : PState),
      (ixs.foldl (tbTransInsn f b) s).syscalls = s.syscalls
  | [], _ => rfl
  | i :: rest, s => by
      rw [List.foldl_cons, syscalls_foldl_tbTransInsn f b rest,
        syscalls_tbTransInsn]

theorem syscalls_tbTransLoad (host : Host) (s : PState) :
    (tbTransLoad host s).syscalls = s.syscalls := by
  unfold tbTransLoad; split_ifs <;> rfl

theorem syscalls_tb_trans (f : Nat) (host : Host) (b : List Insn) (s : PState) :
    (callback_on_tb_trans f host b s).syscalls = s.syscalls := by
  unfold callback_on_tb_trans
  rw [syscalls_foldl_tbTransInsn, syscalls_tbTransLoad]

theorem log_on_syscall (s : PState) (vcpu : Nat) (num : Int)
    (a1 a2 a3 a4 a5 a6 a7 a8 : Nat) :
    (callback_on_syscall s vcpu num a1 a2 a3 a4 a5 a6 a7 a8).log = s.log := rfl

/-- Membership in the syscall table after a return callback implies prior
membership. -/
theorem mem_syscalls_after_syscall {s : PState} {vcpu : Nat} {num ret : Int}
    {p : Nat × (Nat × QemuEventMsg)}
    (hp : p ∈ (callback_after_syscall s vcpu num ret).syscalls) :
    p ∈ s.syscalls := by
  unfold callback_after_syscall at hp
  cases hl : tlookup s.syscalls vcpu with
  | none => rw [hl] at hp; exact hp
  | some q =>
      rw [hl] at hp
      dsimp only at hp
      by_cases hn : syscallNum q.2 == num
      · rw [if_pos hn] at hp
        exact (List.mem_filter.mp hp).1
      · rw [if_neg hn] at hp
        exact (List.mem_filter.mp hp).1

/-! ## C8: the branch-only translation loop bounds -/

/-- C8 counterexample.  The claim says the branch-only loop body runs for
every index in `[0, num_insns)`; for a two-instruction block it runs only for
index 1 and skips index 0. -/
theorem c8_counterexample_loop_skips_index_zero :
    loopIndices true 2 = [1] ∧ 0 ∉ loopIndices true 2 := by decide

/-- C8 amended.  The branch-only translation loop initializes its counter to
`num_insns - 1` in `size_t` arithmetic and compares with `<`, so its body
executes exactly once — for the last instruction index — for every block with
`0 < num_insns < 2^64`, and never for an empty block; only in the
non-branch-only modes does it execute for every index of `[0, num_insns)`. -/
theorem loopIndices_eq (bonly : Bool) (n : Nat) :
    loopIndices bonly n
      = List.range' (if bonly then branchOnlyStart n else 0)
          (n - (if bonly then branchOnlyStart n else 0)) := rfl

theorem c8_amended_branch_only_loop_runs_last_index (n : Nat) (h1 : 0 < n)
    (h2 : n < SIZE_MAX_SUCC) :
    loopIndices true n = [n - 1]
    ∧ loopIndices true 0 = []
    ∧ ∀ m : Nat, loopIndices false m = List.range m := by
  have hsz : SIZE_MAX_SUCC = 18446744073709551616 := by norm_num [SIZE_MAX_SUCC]
  refine ⟨?_, by decide, ?_⟩
  · have hstart : branchOnlyStart n = n - 1 := by
      unfold branchOnlyStart
      rw [hsz] at h2 ⊢
      omega
    have hlen : n - (n - 1) = 1 := by omega
    rw [loopIndices_eq, if_pos rfl, hstart, hlen]
    rfl
  · intro m
    rw [loopIndices_eq, if_neg Bool.false_ne_true, Nat.sub_zero,
      List.range_eq_range']

/-- C8 witness: the amended loop bound at a concrete two-instruction block. -/
theorem c8_amended_branch_only_loop_runs_last_index_witness :
    0 < 2 ∧ 2 < SIZE_MAX_SUCC ∧ loopIndices true 2 = [1] :=
  ⟨by decide, by norm_num [SIZE_MAX_SUCC],
    (c8_amended_branch_only_loop_runs_last_index 2 (by decide)
      (by norm_num [SIZE_MAX_SUCC])).1⟩

/-! ## C4: the branch-only translation handler -/

/-- C4.  With only BRANCHES configured the translation handler is invoked (a
per-instruction feature is set, so the host calls it), its loop runs for the
last instruction, but every record-creating block inside the loop is guarded
by PC, INSTRS or READS_WRITES — all false — so for a one-instruction block no
record whatsoever is created (no entry in either per-instruction registry, no
hook registered), and the only submit is the one-shot load record; the
claimed single `is_branch = true` record does not exist. -/
theorem c4_branch_only_creates_zero_records :
    validTrace (setflags false false false false true) ⟨0x400000, 0x401000, 0x400080⟩
        initState [.tbTrans [⟨0x400080, [0x90]⟩]] = true
    ∧ (run (setflags false false false false true) ⟨0x400000, 0x401000, 0x400080⟩
        initState [.tbTrans [⟨0x400080, [0x90]⟩]]).events = []
    ∧ (run (setflags false false false false true) ⟨0x400000, 0x401000, 0x400080⟩
        initState [.tbTrans [⟨0x400080, [0x90]⟩]]).memEvents = []
    ∧ (run (setflags false false false false true) ⟨0x400000, 0x401000, 0x400080⟩
        initState [.tbTrans [⟨0x400080, [0x90]⟩]]).execHooks = []
    ∧ (run (setflags false false false false true) ⟨0x400000, 0x401000, 0x400080⟩
        initState [.tbTrans [⟨0x400080, [0x90]⟩]]).memExecHooks = []
    ∧ (run (setflags false false false false true) ⟨0x400000, 0x401000, 0x400080⟩
        initState [.tbTrans [⟨0x400080, [0x90]⟩]]).memHooks = []
    ∧ (run (setflags false false false false true) ⟨0x400000, 0x401000, 0x400080⟩
        initState [.tbTrans [⟨0x400080, [0x90]⟩]]).log
        = [⟨none, newloadMsg 0x400000 0x401000 0x400080 7⟩] := by
  decide

/-! ## C6: syscall return with no recorded enter -/

/-- C6.  In the older implementation (src/src/callback.c) a syscall-return
callback arriving with no in-flight record does not ignore the event: it
allocates a fresh zeroed record, marks it SYSCALLS, writes `rv`, and submits
it — synthesizing a `Syscall{num = 0, rv = ret}` event — and logs no warning
(`errors` stays 0).  The newer implementation (src/plugin/src/callback.c)
does ignore it — the lookup misses, nothing is submitted, and removing the
absent key leaves every vCPU's mapping state unchanged — but it, too, logs no
warning. -/
theorem c6_unmatched_return_synthesizes_event :
    src_callback_after_syscall ⟨none, [], 0⟩ 39 0
      = ⟨none, [{ zeroEventExec with flags := FLAG_SYSCALLS, sys_rv := 0 }], 0⟩
    ∧ callback_after_syscall initState 0 39 0 = initState := by
  exact ⟨by decide, by decide⟩

/-! ## C7: at most one in-flight syscall per vCPU -/

theorem nodup_keys_tinsert {α : Type} {l : List (Nat × α)} (h : (keys l).Nodup)
    (k : Nat) (v : α) : (keys (tinsert l k v)).Nodup := by
  rw [keys_tinsert]
  exact List.nodup_cons.mpr ⟨not_mem_filter_self, nodup_filter_ne h⟩

theorem nodup_keys_tremove {α : Type} {l : List (Nat × α)} (h : (keys l).Nodup)
    (k : Nat) : (keys (tremove l k)).Nodup := by
  rw [keys_tremove]
  exact nodup_filter_ne h

theorem sysKeysNodup_step {s : PState} (h : (keys s.syscalls).Nodup) (f : Nat)
    (host : Host) (a : Action) : (keys (step f host s a).syscalls).Nodup := by
  cases a with
  | tbTrans b =>
      show (keys (callback_on_tb_trans f host b s).syscalls).Nodup
      rw [syscalls_tb_trans]; exact h
  | insnExec idv =>
      show (keys (callback_on_insn_exec s idv).syscalls).Nodup
      rw [syscalls_insn_exec]; exact h
  | insnExecMem idv =>
      show (keys (callback_on_insn_exec_mem s idv).syscalls).Nodup
      rw [syscalls_insn_exec_mem]; exact h
  | memAccess idv vaddr is_store =>
      show (keys (callback_on_mem_access s idv vaddr is_store).syscalls).Nodup
      rw [syscalls_mem_access]; exact h
  | sysEnter vcpu num a1 a2 a3 a4 a5 a6 a7 a8 =>
      exact nodup_keys_tinsert h vcpu _
  | sysRet vcpu num ret =>
      show (keys (callback_after_syscall s vcpu num ret).syscalls).Nodup
      unfold callback_after_syscall
      cases tlookup s.syscalls vcpu with
      | none => exact h
      | some q =>
          dsimp only
          split_ifs <;> exact nodup_keys_tremove h vcpu

theorem sysKeysNodup_run (f : Nat) (host : Host) :
    ∀ (acts : List Action) (s : PState),
      (keys s.syscalls).Nodup → (keys (run f host s acts).syscalls).Nodup
  | [], _, h => h
  | a :: rest, s, h => sysKeysNodup_run f host rest _ (sysKeysNodup_step h f host a)

/-- C7.  The syscall mapping holds at most one live entry per vCPU at every
reachable state (its key list is duplicate-free); a syscall-enter replaces
any in-flight record for that vCPU without submitting anything (the log is
untouched and the vCPU's slot holds exactly the fresh record); and in
Scenario E — enter num=1, enter num=2, return num=2 ret=7 on vCPU 0 — the
whole execution submits exactly one event, `Syscall{num = 2, rv = 7}`, and
the num=1 record is dropped without ever being submitted. -/
theorem c7_syscall_mapping_one_entry_per_vcpu :
    (∀ (f : Nat) (host : Host) (acts : List Action),
        (keys (run f host initState acts).syscalls).Nodup)
    ∧ (∀ (s : PState) (vcpu : Nat) (num : Int) (a1 a2 a3 a4 a5 a6 a7 a8 : Nat),
        (callback_on_syscall s vcpu num a1 a2 a3 a4 a5 a6 a7 a8).log = s.log
        ∧ tlookup (callback_on_syscall s vcpu num a1 a2 a3 a4 a5 a6 a7 a8).syscalls vcpu
            = some (s.nextId, newsyscallMsg num [a1, a2, a3, a4, a5, a6, a7, a8]))
    ∧ validTrace (setflags false false false true false) ⟨1, 2, 3⟩ initState
        [.sysEnter 0 1 0 0 0 0 0 0 0 0, .sysEnter 0 2 0 0 0 0 0 0 0 0,
         .sysRet 0 2 7] = true
    ∧ (run (setflags false false false true false) ⟨1, 2, 3⟩ initState
        [.sysEnter 0 1 0 0 0 0 0 0 0 0, .sysEnter 0 2 0 0 0 0 0 0 0 0,
         .sysRet 0 2 7]).log
        = [⟨some 1, ⟨FLAG_SYSCALLS, .syscallEvt 2 7 [0, 0, 0, 0, 0, 0, 0, 0]⟩⟩] := by
  refine ⟨?_, ?_, by decide, by decide⟩
  · intro f host acts
    exact sysKeysNodup_run f host acts initState (by simp [initState, keys])
  · intro s vcpu num a1 a2 a3 a4 a5 a6 a7 a8
    refine ⟨rfl, ?_⟩
    unfold callback_on_syscall tlookup tinsert
    simp

/-! ## C3: syscall enter/return pairing -/

/-- Every record held by the syscall mapping still carries the -1
placeholder return value. -/
def SysRvOk (s : PState) : Prop :=
  ∀ p ∈ s.syscalls, syscallRv p.2.2 = -1

theorem sysRvOk_step {s : PState} (h : SysRvOk s) (f : Nat) (host : Host)
    (a : Action) : SysRvOk (step f host s a) := by
  cases a with
  | tbTrans b =>
      intro p hp
      rw [show (step f host s (.tbTrans b)).syscalls = s.syscalls from
        syscalls_tb_trans f host b s] at hp
      exact h p hp
  | insnExec idv =>
      intro p hp
      rw [show (step f host s (.insnExec idv)).syscalls = s.syscalls from
        syscalls_insn_exec s idv] at hp
      exact h p hp
  | insnExecMem idv =>
      intro p hp
      rw [show (step f host s (.insnExecMem idv)).syscalls = s.syscalls from
        syscalls_insn_exec_mem s idv] at hp
      exact h p hp
  | memAccess idv vaddr is_store =>
      intro p hp
      rw [show (step f host s (.memAccess idv vaddr is_store)).syscalls = s.syscalls from
        syscalls_mem_access s idv vaddr is_store] at hp
      exact h p hp
  | sysEnter vcpu num a1 a2 a3 a4 a5 a6 a7 a8 =>
      intro p hp
      dsimp only [step, callback_on_syscall, tinsert] at hp
      rcases List.mem_cons.mp hp with h3 | h3
      · subst h3; rfl
      · exact h p (List.mem_filter.mp h3).1
  | sysRet vcpu num ret =>
      intro p hp
      exact h p (mem_syscalls_after_syscall hp)

theorem sysRvOk_run (f : Nat) (host : Host) :
    ∀ (acts : List Action) (s : PState),
      SysRvOk s → SysRvOk (run f host s acts)
  | [], _, h => h
  | a :: rest, s, h => sysRvOk_run f host rest _ (sysRvOk_step h f host a)

/-- A return callback whose number matches the in-flight record writes the
return value, submits, and removes the vCPU's entry. -/
theorem after_syscall_match {s : PState} {vcpu k : Nat} {msg : QemuEventMsg}
    {num ret : Int} (hl : tlookup s.syscalls vcpu = some (k, msg))
    (hn : syscallNum msg = num) :
    callback_after_syscall s vcpu num ret
      = { s with log := s.log ++ [⟨some k, setSyscallRv msg ret⟩],
                 syscalls := tremove s.syscalls vcpu } := by
  unfold callback_after_syscall
  rw [hl]
  dsimp only
  rw [if_pos (by simpa using hn)]

/-- A return callback whose number does not match removes the stale entry
without submitting anything. -/
theorem after_syscall_mismatch {s : PState} {vcpu k : Nat} {msg : QemuEventMsg}
    {num ret : Int} (hl : tlookup s.syscalls vcpu = some (k, msg))
    (hn : syscallNum msg ≠ num) :
    callback_after_syscall s vcpu num ret
      = { s with syscalls := tremove s.syscalls vcpu } := by
  unfold callback_after_syscall
  rw [hl]
  dsimp only
  rw [if_neg (by simpa using hn)]

/-- C3.  For every vCPU, a record created by the syscall-enter callback keeps
`rv = -1` while it sits in the per-vCPU mapping; a return callback whose
number matches sets `rv` to the returned value, submits the record and
removes it from the mapping; a return whose number differs removes the stale
entry without submitting; and Scenario D — enter vCPU 0 with num=60 and args
[1..8], then return num=60 ret=0 — emits exactly one
`Syscall{num = 60, rv = 0, args = [1..8]}`. -/
theorem c3_syscall_rv_pairing :
    (∀ (f : Nat) (host : Host) (acts : List Action),
        ∀ p ∈ (run f host initState acts).syscalls, syscallRv p.2.2 = -1)
    ∧ (∀ (s : PState) (vcpu k : Nat) (msg : QemuEventMsg) (num ret : Int),
        tlookup s.syscalls vcpu = some (k, msg) → syscallNum msg = num →
        callback_after_syscall s vcpu num ret
          = { s with log := s.log ++ [⟨some k, setSyscallRv msg ret⟩],
                     syscalls := tremove s.syscalls vcpu })
    ∧ (∀ (s : PState) (vcpu k : Nat) (msg : QemuEventMsg) (num ret : Int),
        tlookup s.syscalls vcpu = some (k, msg) → syscallNum msg ≠ num →
        callback_after_syscall s vcpu num ret
          = { s with syscalls := tremove s.syscalls vcpu })
    ∧ validTrace (setflags false false false true false) ⟨1, 2, 3⟩ initState
        [.sysEnter 0 60 1 2 3 4 5 6 7 8, .sysRet 0 60 0] = true
    ∧ (run (setflags false false false true false) ⟨1, 2, 3⟩ initState
        [.sysEnter 0 60 1 2 3 4 5 6 7 8, .sysRet 0 60 0]).log
        = [⟨some 0, ⟨FLAG_SYSCALLS, .syscallEvt 60 0 [1, 2, 3, 4, 5, 6, 7, 8]⟩⟩]
    ∧ (run (setflags false false false true false) ⟨1, 2, 3⟩ initState
        [.sysEnter 0 60 1 2 3 4 5 6 7 8, .sysRet 0 60 0]).syscalls = [] := by
  refine ⟨?_, ?_, ?_, by decide, by decide, by decide⟩
  · intro f host acts
    exact sysRvOk_run f host acts initState (by intro p hp; simp [initState] at hp)
  · intro s vcpu k msg num ret hl hn
    exact after_syscall_match hl hn
  · intro s vcpu k msg num ret hl hn
    exact after_syscall_mismatch hl hn

/-- C3 witness: the in-flight record after a lone enter carries `rv = -1`,
and a concrete matched return applied through the theorem. -/
theorem c3_syscall_rv_pairing_witness :
    syscallRv (newsyscallMsg 60 [1, 2, 3, 4, 5, 6, 7, 8]) = -1 :=
  c3_syscall_rv_pairing.1 (setflags false false false true false) ⟨1, 2, 3⟩
    [.sysEnter 0 60 1 2 3 4 5 6 7 8]
    (0, (0, newsyscallMsg 60 [1, 2, 3, 4, 5, 6, 7, 8])) (by decide)

/-! ## Registry content tags

Each registry only ever holds messages of its own kind: the exec registry
`Pc`/`Instr` records, the memory registry `MemAccess` wrappers, the syscall
mapping `Syscall` records. -/

structure TagInv (s : PState) : Prop where
  tagE : ∀ p ∈ s.events, isExecTableMsg p.2 = true
  tagM : ∀ p ∈ s.memEvents, isMemMsg p.2.msg = true
  tagS : ∀ p ∈ s.syscalls, isSysMsg p.2.2 = true

theorem mem_of_mem_tinsert {α : Type} {l : List (Nat × α)} {k : Nat} {v : α}
    {p : Nat × α} (hp : p ∈ tinsert l k v) : p = (k, v) ∨ p ∈ l := by
  unfold tinsert at hp
  rcases List.mem_cons.mp hp with h3 | h3
  · exact Or.inl h3
  · exact Or.inr (List.mem_filter.mp h3).1

theorem mem_of_mem_tremove {α : Type} {l : List (Nat × α)} {k : Nat}
    {p : Nat × α} (hp : p ∈ tremove l k) : p ∈ l :=
  (List.mem_filter.mp hp).1

theorem isMemMsg_setMemAddr (m : QemuEventMsg) (v : Nat) (st : Bool) :
    isMemMsg (setMemAddr m v st) = isMemMsg m := by
  unfold setMemAddr isMemMsg
  cases m.event <;> rfl

theorem isSysMsg_setSyscallRv (m : QemuEventMsg) (ret : Int) :
    isSysMsg (setSyscallRv m ret) = isSysMsg m := by
  unfold setSyscallRv isSysMsg
  cases m.event <;> rfl

theorem tagInv_regPc {s : PState} (h : TagInv s) (pc : Nat) (branch : Bool) :
    TagInv (regPcRecord s pc branch) := by
  refine ⟨?_, h.tagM, h.tagS⟩
  intro p hp
  rcases mem_of_mem_tinsert hp with h3 | h3
  · subst h3; rfl
  · exact h.tagE p h3

theorem tagInv_regInstr {s : PState} (h : TagInv s) (pc : Nat) (data : List Nat) :
    TagInv (regInstrRecord s pc data) := by
  refine ⟨?_, h.tagM, h.tagS⟩
  intro p hp
  rcases mem_of_mem_tinsert hp with h3 | h3
  · subst h3; rfl
  · exact h.tagE p h3

theorem tagInv_regMem {s : PState} (h : TagInv s) (pc : Nat) :
    TagInv (regMemRecord s pc) := by
  refine ⟨h.tagE, ?_, h.tagS⟩
  intro p hp
  rcases mem_of_mem_tinsert hp with h3 | h3
  · subst h3; rfl
  · exact h.tagM p h3

theorem tagInv_tbTransInsn {s : PState} (h : TagInv s) (f : Nat) (b : List Insn)
    (i : Nat) : TagInv (tbTransInsn f b s i) := by
  unfold tbTransInsn
  dsimp only
  split_ifs <;>
    first
      | exact h
      | exact tagInv_regPc h _ _
      | exact tagInv_regInstr h _ _
      | exact tagInv_regMem h _
      | exact tagInv_regMem (tagInv_regPc h _ _) _
      | exact tagInv_regMem (tagInv_regInstr h _ _) _
      | exact tagInv_regInstr (tagInv_regPc h _ _) _ _
      | exact tagInv_regMem (tagInv_regInstr (tagInv_regPc h _ _) _ _) _

theorem tagInv_foldl_tbTransInsn (f : Nat) (b : List Insn) :
    ∀ (ixs : List Nat) (s : PState), TagInv s →
      TagInv (ixs.foldl (tbTransInsn f b) s)
  | [], _, h => h
  | i :: rest, _, h =>
      tagInv_foldl_tbTransInsn f b rest _ (tagInv_tbTransInsn h f b i)

theorem tagInv_tbTransLoad {s : PState} (h : TagInv s) (host : Host) :
    TagInv (tbTransLoad host s) := by
  unfold tbTransLoad
  split_ifs
  · exact ⟨h.tagE, h.tagM, h.tagS⟩
  · exact h

theorem tagInv_step {s : PState} (h : TagInv s) (f : Nat) (host : Host)
    (a : Action) : TagInv (step f host s a) := by
  cases a with
  | tbTrans b =>
      exact tagInv_foldl_tbTransInsn f b _ _ (tagInv_tbTransLoad h host)
  | insnExec idv =>
      show TagInv (callback_on_insn_exec s idv)
      unfold callback_on_insn_exec
      cases tlookup s.events idv with
      | none => exact h
      | some msg =>
          exact ⟨fun p hp => h.tagE p (mem_of_mem_tremove hp), h.tagM, h.tagS⟩
  | insnExecMem idv =>
      show TagInv (callback_on_insn_exec_mem s idv)
      unfold callback_on_insn_exec_mem
      cases hl : tlookup s.memEvents idv with
      | none => exact h
      | some w =>
          have hw : isMemMsg w.msg = true := h.tagM _ (tlookup_mem hl)
          dsimp only
          split_ifs
          · exact ⟨h.tagE, fun p hp => h.tagM p (mem_of_mem_tremove hp), h.tagS⟩
          · refine ⟨h.tagE, ?_, h.tagS⟩
            intro p hp
            rcases mem_of_mem_tinsert hp with h3 | h3
            · subst h3; exact hw
            · exact h.tagM p h3
  | memAccess idv vaddr is_store =>
      show TagInv (callback_on_mem_access s idv vaddr is_store)
      unfold callback_on_mem_access
      cases hl : tlookup s.memEvents idv with
      | none => exact h
      | some w =>
          have hw : isMemMsg w.msg = true := h.tagM _ (tlookup_mem hl)
          have hw2 : isMemMsg (setMemAddr w.msg vaddr is_store) = true := by
            rw [isMemMsg_setMemAddr]; exact hw
          dsimp only
          split_ifs
          · exact ⟨h.tagE, fun p hp => h.tagM p (mem_of_mem_tremove hp), h.tagS⟩
          · refine ⟨h.tagE, ?_, h.tagS⟩
            intro p hp
            rcases mem_of_mem_tinsert hp with h3 | h3
            · subst h3; exact hw2
            · exact h.tagM p h3
  | sysEnter vcpu num a1 a2 a3 a4 a5 a6 a7 a8 =>
      refine ⟨h.tagE, h.tagM, ?_⟩
      intro p hp
      rcases mem_of_mem_tinsert hp with h3 | h3
      · subst h3; rfl
      · exact h.tagS p h3
  | sysRet vcpu num ret =>
      show TagInv (callback_after_syscall s vcpu num ret)
      unfold callback_after_syscall
      cases hl : tlookup s.syscalls vcpu with
      | none => exact h
      | some q =>
          dsimp only
          split_ifs <;>
            exact ⟨h.tagE, h.tagM, fun p hp => h.tagS p (mem_of_mem_tremove hp)⟩

theorem tagInv_init : TagInv initState := by
  refine ⟨?_, ?_, ?_⟩ <;> intro p hp <;> simp [initState] at hp

/-! ## C10: the one-shot load record -/

theorem log_tbTransInsn (f : Nat) (b : List Insn) (s : PState) (i : Nat) :
    (tbTransInsn f b s i).log = s.log := by
  unfold tbTransInsn regPcRecord regInstrRecord regMemRecord
  dsimp only
  split_ifs <;> rfl

theorem log_foldl_tbTransInsn (f : Nat) (b : List Insn) :
    ∀ (ixs : List Nat) (s : PState),
      (ixs.foldl (tbTransInsn f b) s).log = s.log
  | [], _ => rfl
  | i :: rest, s => by
      rw [List.foldl_cons, log_foldl_tbTransInsn f b rest, log_tbTransInsn]

theorem isExecTableMsg_not_load {m : QemuEventMsg}
    (h : isExecTableMsg m = true) : isLoadMsg m = false := by
  unfold isExecTableMsg at h
  unfold isLoadMsg
  cases hm : m.event <;> rw [hm] at h <;> first | rfl | exact absurd h (by simp)

theorem isMemMsg_not_load {m : QemuEventMsg} (h : isMemMsg m = true) :
    isLoadMsg m = false := by
  unfold isMemMsg at h
  unfold isLoadMsg
  cases hm : m.event <;> rw [hm] at h <;> first | rfl | exact absurd h (by simp)

theorem isSysMsg_not_load {m : QemuEventMsg} (h : isSysMsg m = true) :
    isLoadMsg m = false := by
  unfold isSysMsg at h
  unfold isLoadMsg
  cases hm : m.event <;> rw [hm] at h <;> first | rfl | exact absurd h (by simp)

/-- Every load record submitted so far carries exactly the host code-range
triple and the constant protection 7. -/
def LoadOk (host : Host) (s : PState) : Prop :=
  ∀ e ∈ s.log, isLoadMsg e.msg = true →
    e.msg = newloadMsg host.start_code host.end_code host.entry_code 7

theorem loadOk_append_notload {host : Host} {s : PState} (h : LoadOk host s)
    {e : SubmitEntry} (he : isLoadMsg e.msg = false) :
    ∀ x ∈ s.log ++ [e], isLoadMsg x.msg = true →
      x.msg = newloadMsg host.start_code host.end_code host.entry_code 7 := by
  intro x hx hload
  rcases List.mem_append.mp hx with h1 | h1
  · exact h x h1 hload
  · simp only [List.mem_singleton] at h1
    subst h1
    rw [he] at hload
    exact absurd hload (by simp)

theorem loadOk_step {s : PState} (host : Host) (ht : TagInv s)
    (h : LoadOk host s) (f : Nat) (a : Action) :
    LoadOk host (step f host s a) := by
  cases a with
  | tbTrans b =>
      show LoadOk host (callback_on_tb_trans f host b s)
      intro e he hload
      unfold callback_on_tb_trans at he
      rw [log_foldl_tbTransInsn] at he
      unfold tbTransLoad at he
      by_cases hsc : s.startCode == 0
      · rw [if_pos hsc] at he
        dsimp only at he
        rcases List.mem_append.mp he with h1 | h1
        · exact h e h1 hload
        · simp only [List.mem_singleton] at h1
          subst h1
          rfl
      · rw [if_neg hsc] at he
        exact h e he hload
  | insnExec idv =>
      show LoadOk host (callback_on_insn_exec s idv)
      unfold callback_on_insn_exec
      cases hl : tlookup s.events idv with
      | none => exact h
      | some msg =>
          exact loadOk_append_notload h
            (isExecTableMsg_not_load (ht.tagE _ (tlookup_mem hl)))
  | insnExecMem idv =>
      show LoadOk host (callback_on_insn_exec_mem s idv)
      unfold callback_on_insn_exec_mem
      cases hl : tlookup s.memEvents idv with
      | none => exact h
      | some w =>
          dsimp only
          split_ifs
          · exact loadOk_append_notload h
              (isMemMsg_not_load (ht.tagM _ (tlookup_mem hl)))
          · exact h
  | memAccess idv vaddr is_store =>
      show LoadOk host (callback_on_mem_access s idv vaddr is_store)
      unfold callback_on_mem_access
      cases hl : tlookup s.memEvents idv with
      | none => exact h
      | some w =>
          dsimp only
          split_ifs
          · refine loadOk_append_notload h (isMemMsg_not_load ?_)
            rw [isMemMsg_setMemAddr]
            exact ht.tagM _ (tlookup_mem hl)
          · exact h
  | sysEnter vcpu num a1 a2 a3 a4 a5 a6 a7 a8 => exact h
  | sysRet vcpu num ret =>
      show LoadOk host (callback_after_syscall s vcpu num ret)
      unfold callback_after_syscall
      cases hl : tlookup s.syscalls vcpu with
      | none => exact h
      | some q =>
          dsimp only
          split_ifs
          · refine loadOk_append_notload h (isSysMsg_not_load ?_)
            rw [isSysMsg_setSyscallRv]
            exact ht.tagS _ (tlookup_mem hl)
          · exact h

theorem loadOk_run (f : Nat) (host : Host) :
    ∀ (acts : List Action) (s : PState), TagInv s → LoadOk host s →
      LoadOk host (run f host s acts)
  | [], _, _, h => h
  | a :: rest, s, ht, h =>
      loadOk_run f host rest _ (tagInv_step ht f host a)
        (loadOk_step host ht h f a)

/-- C10.  Every `Load` event the plugin ever submits carries the constant
protection value 0x7, and its min/max/entry words are exactly the host's
`start_code()`, `end_code()` and `entry_code()` values. -/
theorem c10_load_event_constant_prot (f : Nat) (host : Host)
    (acts : List Action) (e : SubmitEntry)
    (he : e ∈ (run f host initState acts).log)
    (hl : isLoadMsg e.msg = true) :
    e.msg = newloadMsg host.start_code host.end_code host.entry_code 7 :=
  loadOk_run f host acts initState tagInv_init
    (by intro x hx _; simp [initState] at hx) e he hl

/-- C10 witness: the load record emitted by a concrete first translation. -/
theorem c10_load_event_constant_prot_witness :
    (⟨none, newloadMsg 0x1000 0x2000 0x1500 7⟩ : SubmitEntry).msg
      = newloadMsg 0x1000 0x2000 0x1500 7 :=
  c10_load_event_constant_prot (setflags true false false false false)
    ⟨0x1000, 0x2000, 0x1500⟩ [.tbTrans [⟨0x400080, [0x90]⟩]]
    ⟨none, newloadMsg 0x1000 0x2000 0x1500 7⟩ (by decide) (by decide)

/-! ## C5: single load event, before any per-instruction event -/

theorem startCode_tbTransInsn (f : Nat) (b : List Insn) (s : PState) (i : Nat) :
    (tbTransInsn f b s i).startCode = s.startCode := by
  unfold tbTransInsn regPcRecord regInstrRecord regMemRecord
  dsimp only
  split_ifs <;> rfl

theorem startCode_foldl_tbTransInsn (f : Nat) (b : List Insn) :
    ∀ (ixs : List Nat) (s : PState),
      (ixs.foldl (tbTransInsn f b) s).startCode = s.startCode
  | [], _ => rfl
  | i :: rest, s => by
      rw [List.foldl_cons, startCode_foldl_tbTransInsn f b rest,
        startCode_tbTransInsn]

theorem tbTransLoad_pos {host : Host} {s : PState} (h0 : s.startCode = 0) :
    tbTransLoad host s
      = { s with startCode := host.start_code, endCode := host.end_code,
                 entryCode := host.entry_code,
                 log := s.log ++ [⟨none, newloadMsg host.start_code host.end_code
                   host.entry_code 7⟩] } := by
  unfold tbTransLoad
  rw [if_pos (by simpa using h0)]

theorem tbTransLoad_neg {host : Host} {s : PState} (h0 : s.startCode ≠ 0) :
    tbTransLoad host s = s := by
  unfold tbTransLoad
  rw [if_neg (by simpa using h0)]

theorem startCode_insn_exec (s : PState) (idv : Nat) :
    (callback_on_insn_exec s idv).startCode = s.startCode := by
  unfold callback_on_insn_exec; cases tlookup s.events idv <;> rfl

theorem startCode_insn_exec_mem (s : PState) (idv : Nat) :
    (callback_on_insn_exec_mem s idv).startCode = s.startCode := by
  unfold callback_on_insn_exec_mem
  cases tlookup s.memEvents idv with
  | none => rfl
  | some w => dsimp only; split_ifs <;> rfl

theorem startCode_mem_access (s : PState) (idv vaddr : Nat) (is_store : Bool) :
    (callback_on_mem_access s idv vaddr is_store).startCode = s.startCode := by
  unfold callback_on_mem_access
  cases tlookup s.memEvents idv with
  | none => rfl
  | some w => dsimp only; split_ifs <;> rfl

theorem startCode_after_syscall (s : PState) (vcpu : Nat) (num ret : Int) :
    (callback_after_syscall s vcpu num ret).startCode = s.startCode := by
  unfold callback_after_syscall
  cases tlookup s.syscalls vcpu with
  | none => rfl
  | some q => dsimp only; split_ifs <;> rfl

/-- Helper: any-of-append with one appended entry. -/
theorem any_append_singleton {α : Type} (l : List α) (e : α) (p : α → Bool) :
    (l ++ [e]).any p = (l.any p || p e) := by
  rw [List.any_append]
  simp

theorem filter_nil_of_any_false {α : Type} {l : List α} {p : α → Bool}
    (h : l.any p = false) : l.filter p = [] := by
  induction l with
  | nil => rfl
  | cons a t ih =>
      rw [List.any_cons, Bool.or_eq_false_iff] at h
      rw [List.filter_cons, h.1]
      simpa using ih h.2

theorem any_of_filter_length_one {α : Type} {l : List α} {p : α → Bool}
    (h : (l.filter p).length = 1) : l.any p = true := by
  rw [List.any_eq_true]
  cases hf : l.filter p with
  | nil => rw [hf] at h; exact absurd h (by simp)
  | cons a t =>
      have ha := List.mem_filter.mp (hf ▸ List.mem_cons_self a t)
      exact ⟨a, ha.1, ha.2⟩

theorem filter_append_not {α : Type} (p : α → Bool) {l : List α} {e : α}
    (he : p e = false) : (l ++ [e]).filter p = l.filter p := by
  rw [List.filter_append, List.filter_cons, he]
  simp

theorem filter_append_yes {α : Type} (p : α → Bool) {l : List α} {e : α}
    (he : p e = true) : (l ++ [e]).filter p = l.filter p ++ [e] := by
  rw [List.filter_append, List.filter_cons, he]
  simp

/-- Appending an entry preserves the load-before-per-instruction prefix
ordering, provided the entry is only per-instruction when a load is already
in the log. -/
theorem ordered_append {l : List SubmitEntry} {e : SubmitEntry}
    (hord : ∀ n : Nat, (l.take n).any (fun x => isPerInsnMsg x.msg) = true →
      (l.take n).any (fun x => isLoadMsg x.msg) = true)
    (he : isPerInsnMsg e.msg = true → l.any (fun x => isLoadMsg x.msg) = true) :
    ∀ n : Nat, ((l ++ [e]).take n).any (fun x => isPerInsnMsg x.msg) = true →
      ((l ++ [e]).take n).any (fun x => isLoadMsg x.msg) = true := by
  intro n hq
  rw [List.take_append_eq_append_take, List.any_append] at hq ⊢
  cases hn : n - l.length with
  | zero =>
      rw [hn] at hq
      simp only [List.take_zero, List.any_nil, Bool.or_false] at hq ⊢
      exact hord n hq
  | succ m =>
      have hlen : l.length ≤ n := by omega
      have htake : l.take n = l := List.take_of_length_le hlen
      rw [hn] at hq
      simp only [List.take_succ_cons, List.take_nil, List.any_cons,
        List.any_nil, Bool.or_false] at hq ⊢
      rcases Bool.or_eq_true_iff.mp hq with h1 | h1
      · exact Bool.or_eq_true_iff.mpr (Or.inl (hord n h1))
      · rw [htake]
        exact Bool.or_eq_true_iff.mpr (Or.inl (he h1))

/-- Load/ordering invariant for C5: before the first translation no record is
registered and no load or per-instruction event has been submitted; after it
exactly one load record sits in the log; in every log prefix a
per-instruction event is preceded by the load. -/
structure LoadSeqInv (s : PState) : Prop where
  beforeE : s.startCode = 0 → s.events = []
  beforeM : s.startCode = 0 → s.memEvents = []
  beforeLoad : s.startCode = 0 → s.log.any (fun e => isLoadMsg e.msg) = false
  beforePI : s.startCode = 0 → s.log.any (fun e => isPerInsnMsg e.msg) = false
  afterOne : s.startCode ≠ 0 →
    (s.log.filter (fun e => isLoadMsg e.msg)).length = 1
  ordered : ∀ n : Nat,
    (s.log.take n).any (fun e => isPerInsnMsg e.msg) = true →
    (s.log.take n).any (fun e => isLoadMsg e.msg) = true

theorem loadSeqInv_init : LoadSeqInv initState := by
  refine ⟨fun _ => rfl, fun _ => rfl, fun _ => rfl, fun _ => rfl, ?_, ?_⟩
  · intro h0; exact absurd rfl h0
  · intro n h
    simp [initState] at h

theorem isExecTableMsg_perInsn {m : QemuEventMsg}
    (h : isExecTableMsg m = true) : isPerInsnMsg m = true := by
  unfold isExecTableMsg at h
  unfold isPerInsnMsg
  cases hm : m.event <;> rw [hm] at h <;> first | rfl | exact absurd h (by simp)

theorem isMemMsg_perInsn {m : QemuEventMsg} (h : isMemMsg m = true) :
    isPerInsnMsg m = true := by
  unfold isMemMsg at h
  unfold isPerInsnMsg
  cases hm : m.event <;> rw [hm] at h <;> first | rfl | exact absurd h (by simp)

theorem isSysMsg_not_perInsn {m : QemuEventMsg} (h : isSysMsg m = true) :
    isPerInsnMsg m = false := by
  unfold isSysMsg at h
  unfold isPerInsnMsg
  cases hm : m.event <;> rw [hm] at h <;> first | rfl | exact absurd h (by simp)

/-- A per-instruction submit append (from either the exec or the memory
registry, which is only possible once a record exists, i.e. after the first
translation) preserves the load/ordering invariant. -/
theorem loadSeqInv_append_perInsn {s : PState} (h : LoadSeqInv s)
    (hne : s.startCode ≠ 0) {e : SubmitEntry}
    (hload : isLoadMsg e.msg = false)
    (s2 : PState) (hlog : s2.log = s.log ++ [e])
    (hsc : s2.startCode = s.startCode)
    (hev : s.startCode = 0 → s2.events = [])
    (hmm : s.startCode = 0 → s2.memEvents = []) : LoadSeqInv s2 := by
  have hany : s.log.any (fun x => isLoadMsg x.msg) = true :=
    any_of_filter_length_one (h.afterOne hne)
  refine ⟨?_, ?_, ?_, ?_, ?_, ?_⟩
  · intro h0; exact hev (hsc ▸ h0)
  · intro h0; exact hmm (hsc ▸ h0)
  · intro h0; exact absurd (hsc ▸ h0) hne
  · intro h0; exact absurd (hsc ▸ h0) hne
  · intro _
    rw [hlog, filter_append_not (fun x : SubmitEntry => isLoadMsg x.msg) hload]
    exact h.afterOne hne
  · rw [hlog]
    exact ordered_append h.ordered (fun _ => hany)

/-- A syscall submit append (neither load nor per-instruction) preserves the
load/ordering invariant. -/
theorem loadSeqInv_append_sys {s : PState} (h : LoadSeqInv s)
    {e : SubmitEntry} (hload : isLoadMsg e.msg = false)
    (hpi : isPerInsnMsg e.msg = false)
    (s2 : PState) (hlog : s2.log = s.log ++ [e])
    (hsc : s2.startCode = s.startCode)
    (hev : s2.events = s.events) (hmm : s2.memEvents = s.memEvents) :
    LoadSeqInv s2 := by
  refine ⟨?_, ?_, ?_, ?_, ?_, ?_⟩
  · intro h0; rw [hev]; exact h.beforeE (hsc ▸ h0)
  · intro h0; rw [hmm]; exact h.beforeM (hsc ▸ h0)
  · intro h0
    rw [hlog, any_append_singleton, h.beforeLoad (hsc ▸ h0), hload]
    rfl
  · intro h0
    rw [hlog, any_append_singleton, h.beforePI (hsc ▸ h0), hpi]
    rfl
  · intro h0
    rw [hlog, filter_append_not (fun x : SubmitEntry => isLoadMsg x.msg) hload]
    exact h.afterOne (hsc ▸ h0)
  · rw [hlog]
    exact ordered_append h.ordered (fun hc => absurd hc (by rw [hpi]; simp))

theorem loadSeqInv_step {s : PState} {host : Host}
    (hsc : host.start_code ≠ 0) (ht : TagInv s) (h : LoadSeqInv s) (f : Nat)
    (a : Action) : LoadSeqInv (step f host s a) := by
  cases a with
  | tbTrans b =>
      show LoadSeqInv (callback_on_tb_trans f host b s)
      have hlog : (callback_on_tb_trans f host b s).log = (tbTransLoad host s).log := by
        unfold callback_on_tb_trans; rw [log_foldl_tbTransInsn]
      have hsc2 : (callback_on_tb_trans f host b s).startCode
          = (tbTransLoad host s).startCode := by
        unfold callback_on_tb_trans; rw [startCode_foldl_tbTransInsn]
      by_cases h0 : s.startCode = 0
      · rw [tbTransLoad_pos h0] at hlog hsc2
        dsimp only at hlog hsc2
        have hne2 : (callback_on_tb_trans f host b s).startCode ≠ 0 := by
          rw [hsc2]; exact hsc
        refine ⟨?_, ?_, ?_, ?_, ?_, ?_⟩
        · intro hx; exact absurd hx hne2
        · intro hx; exact absurd hx hne2
        · intro hx; exact absurd hx hne2
        · intro hx; exact absurd hx hne2
        · intro _
          rw [hlog, filter_append_yes (fun x : SubmitEntry => isLoadMsg x.msg)
            (e := ⟨none, newloadMsg host.start_code host.end_code host.entry_code 7⟩)
            rfl, filter_nil_of_any_false (h.beforeLoad h0)]
          rfl
        · rw [hlog]
          exact ordered_append h.ordered (fun hc => absurd hc (by simp [isPerInsnMsg, newloadMsg]))
      · rw [tbTransLoad_neg h0] at hlog hsc2
        refine ⟨?_, ?_, ?_, ?_, ?_, ?_⟩
        · intro hx; rw [hsc2] at hx; exact absurd hx h0
        · intro hx; rw [hsc2] at hx; exact absurd hx h0
        · intro hx; rw [hsc2] at hx; exact absurd hx h0
        · intro hx; rw [hsc2] at hx; exact absurd hx h0
        · intro _; rw [hlog]; exact h.afterOne h0
        · rw [hlog]; exact h.ordered
  | insnExec idv =>
      show LoadSeqInv (callback_on_insn_exec s idv)
      unfold callback_on_insn_exec
      cases hl : tlookup s.events idv with
      | none => exact h
      | some msg =>
          have hne : s.startCode ≠ 0 := by
            intro h0
            rw [h.beforeE h0] at hl
            exact absurd hl (by simp [tlookup])
          have htag := ht.tagE _ (tlookup_mem hl)
          exact loadSeqInv_append_perInsn h hne
            (isExecTableMsg_not_load htag) _ rfl rfl
            (fun h0 => absurd h0 hne) (fun h0 => absurd h0 hne)
  | insnExecMem idv =>
      show LoadSeqInv (callback_on_insn_exec_mem s idv)
      unfold callback_on_insn_exec_mem
      cases hl : tlookup s.memEvents idv with
      | none => exact h
      | some w =>
          have hne : s.startCode ≠ 0 := by
            intro h0
            rw [h.beforeM h0] at hl
            exact absurd hl (by simp [tlookup])
          have htag := ht.tagM _ (tlookup_mem hl)
          dsimp only
          split_ifs
          · exact loadSeqInv_append_perInsn h hne
              (isMemMsg_not_load htag) _ rfl rfl
              (fun h0 => absurd h0 hne) (fun h0 => absurd h0 hne)
          · refine ⟨?_, ?_, ?_, ?_, ?_, ?_⟩
            · intro h0; exact absurd h0 hne
            · intro h0; exact absurd h0 hne
            · intro h0; exact absurd h0 hne
            · intro h0; exact absurd h0 hne
            · intro _; exact h.afterOne hne
            · exact h.ordered
  | memAccess idv vaddr is_store =>
      show LoadSeqInv (callback_on_mem_access s idv vaddr is_store)
      unfold callback_on_mem_access
      cases hl : tlookup s.memEvents idv with
      | none => exact h
      | some w =>
          have hne : s.startCode ≠ 0 := by
            intro h0
            rw [h.beforeM h0] at hl
            exact absurd hl (by simp [tlookup])
          have htag : isMemMsg (setMemAddr w.msg vaddr is_store) = true := by
            rw [isMemMsg_setMemAddr]
            exact ht.tagM _ (tlookup_mem hl)
          dsimp only
          split_ifs
          · exact loadSeqInv_append_perInsn h hne
              (isMemMsg_not_load htag) _ rfl rfl
              (fun h0 => absurd h0 hne) (fun h0 => absurd h0 hne)
          · refine ⟨?_, ?_, ?_, ?_, ?_, ?_⟩
            · intro h0; exact absurd h0 hne
            · intro h0; exact absurd h0 hne
            · intro h0; exact absurd h0 hne
            · intro h0; exact absurd h0 hne
            · intro _; exact h.afterOne hne
            · exact h.ordered
  | sysEnter vcpu num a1 a2 a3 a4 a5 a6 a7 a8 =>
      exact ⟨h.beforeE, h.beforeM, h.beforeLoad, h.beforePI, h.afterOne,
        h.ordered⟩
  | sysRet vcpu num ret =>
      show LoadSeqInv (callback_after_syscall s vcpu num ret)
      unfold callback_after_syscall
      cases hl : tlookup s.syscalls vcpu with
      | none => exact h
      | some q =>
          have htag : isSysMsg (setSyscallRv q.2 ret) = true := by
            rw [isSysMsg_setSyscallRv]
            exact ht.tagS _ (tlookup_mem hl)
          dsimp only
          split_ifs
          · exact loadSeqInv_append_sys h (isSysMsg_not_load htag)
              (isSysMsg_not_perInsn htag) _ rfl rfl rfl rfl
          · exact ⟨h.beforeE, h.beforeM, h.beforeLoad, h.beforePI,
              h.afterOne, h.ordered⟩

theorem loadSeqInv_run (f : Nat) (host : Host) (hsc : host.start_code ≠ 0) :
    ∀ (acts : List Action) (s : PState), TagInv s → LoadSeqInv s →
      LoadSeqInv (run f host s acts)
  | [], _, _, h => h
  | a :: rest, s, ht, h =>
      loadSeqInv_run f host hsc rest _ (tagInv_step ht f host a)
        (loadSeqInv_step hsc ht h f a)

theorem startCode_step_ne_zero {s : PState} {f : Nat} {host : Host}
    (hs : s.startCode ≠ 0) (a : Action) : (step f host s a).startCode ≠ 0 := by
  cases a with
  | tbTrans b =>
      show (callback_on_tb_trans f host b s).startCode ≠ 0
      unfold callback_on_tb_trans
      rw [startCode_foldl_tbTransInsn, tbTransLoad_neg hs]
      exact hs
  | insnExec idv => rw [show (step f host s (.insnExec idv)).startCode
      = s.startCode from startCode_insn_exec s idv]; exact hs
  | insnExecMem idv => rw [show (step f host s (.insnExecMem idv)).startCode
      = s.startCode from startCode_insn_exec_mem s idv]; exact hs
  | memAccess idv vaddr is_store =>
      rw [show (step f host s (.memAccess idv vaddr is_store)).startCode
        = s.startCode from startCode_mem_access s idv vaddr is_store]
      exact hs
  | sysEnter vcpu num a1 a2 a3 a4 a5 a6 a7 a8 => exact hs
  | sysRet vcpu num ret =>
      rw [show (step f host s (.sysRet vcpu num ret)).startCode
        = s.startCode from startCode_after_syscall s vcpu num ret]
      exact hs

theorem startCode_run_ne_zero (f : Nat) (host : Host) :
    ∀ (acts : List Action) (s : PState), s.startCode ≠ 0 →
      (run f host s acts).startCode ≠ 0
  | [], _, hs => hs
  | a :: rest, s, hs =>
      startCode_run_ne_zero f host rest _ (startCode_step_ne_zero hs a)

theorem startCode_tbTrans_ne_zero {s : PState} {f : Nat} {host : Host}
    (hsc : host.start_code ≠ 0) (b : List Insn) :
    (step f host s (.tbTrans b)).startCode ≠ 0 := by
  show (callback_on_tb_trans f host b s).startCode ≠ 0
  unfold callback_on_tb_trans
  rw [startCode_foldl_tbTransInsn]
  by_cases h0 : s.startCode = 0
  · rw [tbTransLoad_pos h0]; exact hsc
  · rw [tbTransLoad_neg h0]; exact h0

theorem startCode_run_ne_zero_of_tbTrans (f : Nat) (host : Host)
    (hsc : host.start_code ≠ 0) :
    ∀ (acts : List Action) (s : PState), (∃ b, Action.tbTrans b ∈ acts) →
      (run f host s acts).startCode ≠ 0
  | a :: rest, s, hex => by
      rcases hex with ⟨b, hb⟩
      rcases List.mem_cons.mp hb with hb1 | hb2
      · subst hb1
        exact startCode_run_ne_zero f host rest _
          (startCode_tbTrans_ne_zero hsc b)
      · exact startCode_run_ne_zero_of_tbTrans f host hsc rest _ ⟨b, hb2⟩
  | [], _, hex => by
      rcases hex with ⟨b, hb⟩
      exact absurd hb (by simp)

/-- C5.  When the host reports a nonzero `start_code`, the plugin emits the
`Load` event at most once over the whole execution; it emits it exactly once
as soon as one translation callback has occurred (the first translation, and
never again on later blocks); and in every prefix of the submit log a
per-instruction event is preceded by the load event, so the single load is on
the wire before any per-instruction event. -/
theorem c5_single_load_event (f : Nat) (host : Host) (acts : List Action)
    (hsc : host.start_code ≠ 0) :
    ((run f host initState acts).log.filter (fun e => isLoadMsg e.msg)).length ≤ 1
    ∧ ((∃ b, Action.tbTrans b ∈ acts) →
        ((run f host initState acts).log.filter
          (fun e => isLoadMsg e.msg)).length = 1)
    ∧ (∀ n : Nat,
        ((run f host initState acts).log.take n).any
          (fun e => isPerInsnMsg e.msg) = true →
        ((run f host initState acts).log.take n).any
          (fun e => isLoadMsg e.msg) = true) := by
  have hinv := loadSeqInv_run f host hsc acts initState tagInv_init loadSeqInv_init
  refine ⟨?_, ?_, hinv.ordered⟩
  · by_cases h0 : (run f host initState acts).startCode = 0
    · rw [filter_nil_of_any_false (hinv.beforeLoad h0)]
      simp
    · rw [hinv.afterOne h0]
  · intro hex
    exact hinv.afterOne (startCode_run_ne_zero_of_tbTrans f host hsc acts initState hex)

/-- C5 witness: Scenario A (PC only, one instruction, one execution) under a
host with nonzero code range. -/
theorem c5_single_load_event_witness :
    ((run (setflags true false false false false) ⟨0x1000, 0x2000, 0x1500⟩
        initState [.tbTrans [⟨0x400080, [0x90]⟩], .insnExec 0]).log.filter
      (fun e => isLoadMsg e.msg)).length ≤ 1 :=
  (c5_single_load_event (setflags true false false false false)
    ⟨0x1000, 0x2000, 0x1500⟩ [.tbTrans [⟨0x400080, [0x90]⟩], .insnExec 0]
    (by decide)).1

/-! ## C9: the memory hook is registered with the read-only mask -/

/-- Every registered memory hook carries the `QEMU_PLUGIN_MEM_R` mask. -/
def MaskOk (s : PState) : Prop := ∀ p ∈ s.memHooks, p.2 = MemMask.r

theorem maskOk_tbTransInsn {s : PState} (h : MaskOk s) (f : Nat) (b : List Insn)
    (i : Nat) : MaskOk (tbTransInsn f b s i) := by
  unfold tbTransInsn regPcRecord regInstrRecord regMemRecord
  dsimp only
  split_ifs <;>
    first
      | exact h
      | (intro p hp
         rcases List.mem_append.mp hp with h1 | h1
         · exact h p h1
         · simp only [List.mem_singleton] at h1
           subst h1
           rfl)

theorem maskOk_foldl_tbTransInsn (f : Nat) (b : List Insn) :
    ∀ (ixs : List Nat) (s : PState), MaskOk s →
      MaskOk (ixs.foldl (tbTransInsn f b) s)
  | [], _, h => h
  | i :: rest, _, h =>
      maskOk_foldl_tbTransInsn f b rest _ (maskOk_tbTransInsn h f b i)

theorem memHooks_tbTransLoad (host : Host) (s : PState) :
    (tbTransLoad host s).memHooks = s.memHooks := by
  unfold tbTransLoad; split_ifs <;> rfl

theorem memHooks_insn_exec (s : PState) (idv : Nat) :
    (callback_on_insn_exec s idv).memHooks = s.memHooks := by
  unfold callback_on_insn_exec; cases tlookup s.events idv <;> rfl

theorem memHooks_insn_exec_mem (s : PState) (idv : Nat) :
    (callback_on_insn_exec_mem s idv).memHooks = s.memHooks := by
  unfold callback_on_insn_exec_mem
  cases tlookup s.memEvents idv with
  | none => rfl
  | some w => dsimp only; split_ifs <;> rfl

theorem memHooks_mem_access (s : PState) (idv vaddr : Nat) (is_store : Bool) :
    (callback_on_mem_access s idv vaddr is_store).memHooks = s.memHooks := by
  unfold callback_on_mem_access
  cases tlookup s.memEvents idv with
  | none => rfl
  | some w => dsimp only; split_ifs <;> rfl

theorem memHooks_after_syscall (s : PState) (vcpu : Nat) (num ret : Int) :
    (callback_after_syscall s vcpu num ret).memHooks = s.memHooks := by
  unfold callback_after_syscall
  cases tlookup s.syscalls vcpu with
  | none => rfl
  | some q => dsimp only; split_ifs <;> rfl

theorem maskOk_step {s : PState} (h : MaskOk s) (f : Nat) (host : Host)
    (a : Action) : MaskOk (step f host s a) := by
  cases a with
  | tbTrans b =>
      refine maskOk_foldl_tbTransInsn f b _ _ ?_
      intro p hp
      rw [memHooks_tbTransLoad] at hp
      exact h p hp
  | insnExec idv =>
      intro p hp
      rw [show (step f host s (.insnExec idv)).memHooks = s.memHooks from
        memHooks_insn_exec s idv] at hp
      exact h p hp
  | insnExecMem idv =>
      intro p hp
      rw [show (step f host s (.insnExecMem idv)).memHooks = s.memHooks from
        memHooks_insn_exec_mem s idv] at hp
      exact h p hp
  | memAccess idv vaddr is_store =>
      intro p hp
      rw [show (step f host s (.memAccess idv vaddr is_store)).memHooks
        = s.memHooks from memHooks_mem_access s idv vaddr is_store] at hp
      exact h p hp
  | sysEnter vcpu num a1 a2 a3 a4 a5 a6 a7 a8 => exact h
  | sysRet vcpu num ret =>
      intro p hp
      rw [show (step f host s (.sysRet vcpu num ret)).memHooks = s.memHooks from
        memHooks_after_syscall s vcpu num ret] at hp
      exact h p hp

theorem maskOk_run (f : Nat) (host : Host) :
    ∀ (acts : List Action) (s : PState), MaskOk s → MaskOk (run f host s acts)
  | [], _, h => h
  | a :: rest, _, h => maskOk_run f host rest _ (maskOk_step h f host a)

/-- Under the host contract, a memory callback only fires for accesses the
registered mask covers; since every hook is registered with the read mask,
every delivered access is a read. -/
theorem validTrace_memAccess_reads (f : Nat) (host : Host) :
    ∀ (acts : List Action) (s : PState), MaskOk s →
      validTrace f host s acts = true →
      ∀ (idv v : Nat) (st : Bool), Action.memAccess idv v st ∈ acts → st = false
  | [], _, _, _, _, _, _, hmem => absurd hmem (by simp)
  | a :: rest, s, hm, hv, idv, v, st, hmem => by
      rw [validTrace] at hv
      rcases Bool.and_eq_true_iff.mp hv with ⟨hva, hvr⟩
      rcases List.mem_cons.mp hmem with h1 | h1
      · subst h1
        unfold validAction at hva
        rcases List.any_eq_true.mp hva with ⟨p, hp, hcond⟩
        rcases Bool.and_eq_true_iff.mp hcond with ⟨_, hmask⟩
        rw [hm p hp] at hmask
        cases st with
        | false => rfl
        | true => exact absurd hmask (by simp [maskAllows])
      · exact validTrace_memAccess_reads f host rest _
          (maskOk_step hm f host a) hvr idv v st h1

/-- C9.  The memory hook for every instruction is registered with the
read-only mask `QEMU_PLUGIN_MEM_R`: every hook in every reachable state
carries that mask, so under the host contract the memory callback fires only
for reads (every memory-access action of a valid trace has `is_store =
false`, and delivering a store to the hooked record is not a valid host
action).  For an instruction that performs only writes the wrapper's `mem`
flag is never set: after the execution callback the record lingers in the
memory mapping with `mem = false`, `exec = true`, and nothing registered is
ever submitted. -/
theorem c9_mem_hook_read_only_mask :
    (∀ (f : Nat) (host : Host) (acts : List Action) (p : Nat × MemMask),
        p ∈ (run f host initState acts).memHooks → p.2 = MemMask.r)
    ∧ (∀ (f : Nat) (host : Host) (acts : List Action),
        validTrace f host initState acts = true →
        ∀ (idv v : Nat) (st : Bool), Action.memAccess idv v st ∈ acts →
          st = false)
    ∧ validTrace (setflags false true false false false)
        ⟨0x1000, 0x2000, 0x1500⟩ initState
        [.tbTrans [⟨0x400100, [0x90]⟩], .insnExecMem 0] = true
    ∧ tlookup (run (setflags false true false false false)
        ⟨0x1000, 0x2000, 0x1500⟩ initState
        [.tbTrans [⟨0x400100, [0x90]⟩], .insnExecMem 0]).memEvents 0
        = some ⟨⟨FLAG_READS_WRITES, .memAccessEvt 0x400100 0 false⟩, false, true⟩
    ∧ (run (setflags false true false false false) ⟨0x1000, 0x2000, 0x1500⟩
        initState [.tbTrans [⟨0x400100, [0x90]⟩], .insnExecMem 0]).log.filter
        (fun e => e.ref.isSome) = []
    ∧ validAction (setflags false true false false false)
        (run (setflags false true false false false) ⟨0x1000, 0x2000, 0x1500⟩
          initState [.tbTrans [⟨0x400100, [0x90]⟩]])
        (.memAccess 0 0xbeef true) = false := by
  refine ⟨?_, ?_, by decide, by decide, by decide, by decide⟩
  · intro f host acts p hp
    exact maskOk_run f host acts initState
      (by intro q hq; simp [initState] at hq) p hp
  · intro f host acts hv idv v st hmem
    exact validTrace_memAccess_reads f host acts initState
      (by intro q hq; simp [initState] at hq) hv idv v st hmem

/-- C9 witness: the hook registered by a concrete translation carries the
read mask. -/
theorem c9_mem_hook_read_only_mask_witness :
    ((0 : Nat), MemMask.r).2 = MemMask.r :=
  c9_mem_hook_read_only_mask.1 (setflags false true false false false)
    ⟨0x1000, 0x2000, 0x1500⟩ [.tbTrans [⟨0x400100, [0x90]⟩]]
    (0, MemMask.r) (by decide)

/-! ## C2: two-phase memory-event assembly -/

theorem tlookup_tinsert_self {α : Type} (l : List (Nat × α)) (k : Nat) (v : α) :
    tlookup (tinsert l k v) k = some v := by
  unfold tlookup tinsert
  rw [List.find?_cons_of_pos _ (by simp)]
  rfl

theorem find?_filter_ne {α : Type} {k k2 : Nat} (h : k2 ≠ k) :
    ∀ l : List (Nat × α),
      (l.filter (fun p => p.1 != k)).find? (fun p => p.1 == k2)
        = l.find? (fun p => p.1 == k2)
  | [] => rfl
  | a :: t => by
      by_cases ha : a.1 = k
      · have h1 : (a.1 != k) = false := by simp [ha]
        have h2 : (a.1 == k2) = false := by
          simp only [beq_eq_false_iff_ne, ne_eq]
          rw [ha]
          exact fun hc => h hc.symm
        rw [List.filter_cons, h1]
        simp only [Bool.false_eq_true, if_false]
        rw [List.find?_cons_of_neg _ (by simp [h2]), find?_filter_ne h t]
      · have h1 : (a.1 != k) = true := by simpa using ha
        rw [List.filter_cons, h1]
        simp only [if_true]
        by_cases hk2 : a.1 = k2
        · rw [List.find?_cons_of_pos _ (by simp [hk2]),
            List.find?_cons_of_pos _ (by simp [hk2])]
        · rw [List.find?_cons_of_neg _ (by simp [hk2]),
            List.find?_cons_of_neg _ (by simp [hk2]), find?_filter_ne h t]

theorem tlookup_tinsert_ne {α : Type} {l : List (Nat × α)} {k k2 : Nat}
    (v : α) (h : k2 ≠ k) : tlookup (tinsert l k v) k2 = tlookup l k2 := by
  unfold tlookup tinsert
  rw [List.find?_cons_of_neg _ (by simp; exact fun hc => h hc.symm),
    find?_filter_ne h l]

theorem tlookup_tremove_self {α : Type} (l : List (Nat × α)) (k : Nat) :
    tlookup (tremove l k) k = none := by
  unfold tlookup tremove
  rw [show (l.filter (fun p => p.1 != k)).find? (fun p => p.1 == k) = none from ?_]
  · rfl
  · rw [List.find?_eq_none]
    intro p hp
    have := (List.mem_filter.mp hp).2
    simpa using this

theorem tlookup_tremove_ne {α : Type} {l : List (Nat × α)} {k k2 : Nat}
    (h : k2 ≠ k) : tlookup (tremove l k) k2 = tlookup l k2 := by
  unfold tlookup tremove
  rw [find?_filter_ne h l]

theorem tlookup_tinsert_cases {α : Type} (l : List (Nat × α)) (k idv : Nat)
    (v : α) :
    tlookup (tinsert l k v) idv = tlookup l idv
    ∨ tlookup (tinsert l k v) idv = some v := by
  by_cases h : idv = k
  · subst h; exact Or.inr (tlookup_tinsert_self _ _ _)
  · exact Or.inl (tlookup_tinsert_ne _ h)

theorem memEvents_insn_exec (s : PState) (idv : Nat) :
    (callback_on_insn_exec s idv).memEvents = s.memEvents := by
  unfold callback_on_insn_exec; cases tlookup s.events idv <;> rfl

theorem memEvents_after_syscall (s : PState) (vcpu : Nat) (num ret : Int) :
    (callback_after_syscall s vcpu num ret).memEvents = s.memEvents := by
  unfold callback_after_syscall
  cases tlookup s.syscalls vcpu with
  | none => rfl
  | some q => dsimp only; split_ifs <;> rfl

theorem memEvents_tbTransLoad (host : Host) (s : PState) :
    (tbTransLoad host s).memEvents = s.memEvents := by
  unfold tbTransLoad; split_ifs <;> rfl

/-- After one iteration of the translation loop body a memory-registry lookup
either is unchanged or finds a freshly inserted wrapper with both assembly
booleans false. -/
theorem tlookup_memEvents_tbTransInsn (f : Nat) (b : List Insn) (s : PState)
    (i idv : Nat) :
    tlookup (tbTransInsn f b s i).memEvents idv = tlookup s.memEvents idv
    ∨ ∃ pc, tlookup (tbTransInsn f b s i).memEvents idv
        = some (newmemaccessWrapper pc 0 false) := by
  unfold tbTransInsn regPcRecord regInstrRecord regMemRecord
  dsimp only
  split_ifs <;>
    first
      | exact Or.inl rfl
      | exact (tlookup_tinsert_cases _ _ idv _).elim Or.inl
          (fun h => Or.inr ⟨_, h⟩)

theorem tlookup_memEvents_foldl (f : Nat) (b : List Insn) :
    ∀ (ixs : List Nat) (s : PState) (idv : Nat),
      tlookup (ixs.foldl (tbTransInsn f b) s).memEvents idv
        = tlookup s.memEvents idv
      ∨ ∃ pc, tlookup (ixs.foldl (tbTransInsn f b) s).memEvents idv
          = some (newmemaccessWrapper pc 0 false)
  | [], _, _ => Or.inl rfl
  | i :: rest, s, idv => by
      rw [List.foldl_cons]
      rcases tlookup_memEvents_foldl f b rest (tbTransInsn f b s i) idv with h | h
      · rcases tlookup_memEvents_tbTransInsn f b s i idv with h2 | ⟨pc, h2⟩
        · exact Or.inl (h.trans h2)
        · exact Or.inr ⟨pc, h.trans h2⟩
      · exact Or.inr h

theorem tlookup_memEvents_tb_trans (f : Nat) (host : Host) (b : List Insn)
    (s : PState) (idv : Nat) :
    tlookup (callback_on_tb_trans f host b s).memEvents idv
      = tlookup s.memEvents idv
    ∨ ∃ pc, tlookup (callback_on_tb_trans f host b s).memEvents idv
        = some (newmemaccessWrapper pc 0 false) := by
  unfold callback_on_tb_trans
  rcases tlookup_memEvents_foldl f b _ (tbTransLoad host s) idv with h | h
  · rw [memEvents_tbTransLoad] at h
    exact Or.inl h
  · exact Or.inr h

theorem memSubmitted_append {l : List SubmitEntry} {e : SubmitEntry} {idv : Nat}
    (h : memSubmitted (l ++ [e]) idv) :
    memSubmitted l idv ∨ (e.ref = some idv ∧ isMemMsg e.msg = true) := by
  rcases h with ⟨x, hx, href, hmem⟩
  rcases List.mem_append.mp hx with h1 | h1
  · exact Or.inl ⟨x, h1, href, hmem⟩
  · simp only [List.mem_singleton] at h1
    subst h1
    exact Or.inr ⟨href, hmem⟩

theorem isExecTableMsg_not_mem {m : QemuEventMsg}
    (h : isExecTableMsg m = true) : isMemMsg m = false := by
  unfold isExecTableMsg at h
  unfold isMemMsg
  cases hm : m.event <;> rw [hm] at h <;> first | rfl | exact absurd h (by simp)

theorem isSysMsg_not_mem {m : QemuEventMsg} (h : isSysMsg m = true) :
    isMemMsg m = false := by
  unfold isSysMsg at h
  unfold isMemMsg
  cases hm : m.event <;> rw [hm] at h <;> first | rfl | exact absurd h (by simp)

theorem isLoadMsg_not_mem {m : QemuEventMsg} (h : isLoadMsg m = true) :
    isMemMsg m = false := by
  unfold isLoadMsg at h
  unfold isMemMsg
  cases hm : m.event <;> rw [hm] at h <;> first | rfl | exact absurd h (by simp)

theorem memAccessIn_cons {a : Action} {rest : List Action} {idv : Nat}
    (h : memAccessIn rest idv) : memAccessIn (a :: rest) idv := by
  rcases h with ⟨v, st, hm⟩
  exact ⟨v, st, List.mem_cons_of_mem a hm⟩

theorem execMemIn_cons {a : Action} {rest : List Action} {idv : Nat}
    (h : execMemIn rest idv) : execMemIn (a :: rest) idv :=
  List.mem_cons_of_mem a h

theorem c2_lift_state {s : PState} {idv : Nat} {w : MemWrapper} {a : Action}
    {rest : List Action} (hw : tlookup s.memEvents idv = some w)
    (hcase : (w.mem = true ∧ execMemIn rest idv)
      ∨ (w.exec = true ∧ memAccessIn rest idv)) :
    ∃ w2, tlookup s.memEvents idv = some w2 ∧
      ((w2.mem = true ∧ execMemIn (a :: rest) idv)
        ∨ (w2.exec = true ∧ memAccessIn (a :: rest) idv)) := by
  refine ⟨w, hw, ?_⟩
  rcases hcase with ⟨hm, he⟩ | ⟨hx, ha⟩
  · exact Or.inl ⟨hm, execMemIn_cons he⟩
  · exact Or.inr ⟨hx, memAccessIn_cons ha⟩

/-- Core C2 induction: a memory submit in the log traces back either to a
submit already in the starting log, to both callbacks inside the trace, or to
a wrapper already in the starting registry holding one of the two assembly
booleans with the other callback inside the trace. -/
theorem c2_submitted_both_observed (f : Nat) (host : Host) :
    ∀ (acts : List Action) (s : PState), TagInv s → ∀ idv : Nat,
      memSubmitted (run f host s acts).log idv →
      memSubmitted s.log idv
      ∨ (memAccessIn acts idv ∧ execMemIn acts idv)
      ∨ (∃ w, tlookup s.memEvents idv = some w ∧
          ((w.mem = true ∧ execMemIn acts idv)
            ∨ (w.exec = true ∧ memAccessIn acts idv)))
  | [], _, _, _, h => Or.inl h
  | a :: rest, s, ht, idv, h => by
      rcases c2_submitted_both_observed f host rest (step f host s a)
          (tagInv_step ht f host a) idv h with h1 | ⟨hma, hem⟩ | ⟨w, hw, hcase⟩
      · cases a with
        | tbTrans b =>
            have h1b : memSubmitted (callback_on_tb_trans f host b s).log idv := h1
            rw [show (callback_on_tb_trans f host b s).log
                = (tbTransLoad host s).log from by
              unfold callback_on_tb_trans; rw [log_foldl_tbTransInsn]] at h1b
            by_cases h0 : s.startCode = 0
            · rw [tbTransLoad_pos h0] at h1b
              dsimp only at h1b
              rcases memSubmitted_append h1b with h2 | ⟨hr, _⟩
              · exact Or.inl h2
              · exact absurd hr (by simp)
            · rw [tbTransLoad_neg h0] at h1b
              exact Or.inl h1b
        | insnExec idv2 =>
            have h1b : memSubmitted (callback_on_insn_exec s idv2).log idv := h1
            revert h1b
            unfold callback_on_insn_exec
            cases hl : tlookup s.events idv2 with
            | none => exact fun h1b => Or.inl h1b
            | some msg =>
                dsimp only
                intro h1b
                rcases memSubmitted_append h1b with h2 | ⟨_, hmm⟩
                · exact Or.inl h2
                · exact absurd hmm (by
                    rw [isExecTableMsg_not_mem (ht.tagE _ (tlookup_mem hl))]
                    simp)
        | insnExecMem idv2 =>
            have h1b : memSubmitted (callback_on_insn_exec_mem s idv2).log idv := h1
            revert h1b
            unfold callback_on_insn_exec_mem
            cases hl : tlookup s.memEvents idv2 with
            | none => exact fun h1b => Or.inl h1b
            | some w0 =>
                dsimp only
                split_ifs with hcnd
                · intro h1b
                  rcases memSubmitted_append h1b with h2 | ⟨hr, _⟩
                  · exact Or.inl h2
                  · have heq : idv2 = idv := by simpa using hr
                    subst heq
                    have hm : w0.mem = true := by simpa using hcnd
                    exact Or.inr (Or.inr ⟨w0, hl,
                      Or.inl ⟨hm, List.mem_cons_self _ _⟩⟩)
                · intro h1b
                  exact Or.inl h1b
        | memAccess idv2 v st =>
            have h1b : memSubmitted (callback_on_mem_access s idv2 v st).log idv := h1
            revert h1b
            unfold callback_on_mem_access
            cases hl : tlookup s.memEvents idv2 with
            | none => exact fun h1b => Or.inl h1b
            | some w0 =>
                dsimp only
                split_ifs with hcnd
                · intro h1b
                  rcases memSubmitted_append h1b with h2 | ⟨hr, _⟩
                  · exact Or.inl h2
                  · have heq : idv2 = idv := by simpa using hr
                    subst heq
                    have hx : w0.exec = true := by simpa using hcnd
                    exact Or.inr (Or.inr ⟨w0, hl,
                      Or.inr ⟨hx, ⟨v, st, List.mem_cons_self _ _⟩⟩⟩)
                · intro h1b
                  exact Or.inl h1b
        | sysEnter vcpu num a1 a2 a3 a4 a5 a6 a7 a8 => exact Or.inl h1
        | sysRet vcpu num ret =>
            have h1b : memSubmitted (callback_after_syscall s vcpu num ret).log idv := h1
            revert h1b
            unfold callback_after_syscall
            cases hl : tlookup s.syscalls vcpu with
            | none => exact fun h1b => Or.inl h1b
            | some q =>
                dsimp only
                split_ifs
                · intro h1b
                  rcases memSubmitted_append h1b with h2 | ⟨_, hmm⟩
                  · exact Or.inl h2
                  · exact absurd hmm (by
                      rw [isSysMsg_not_mem (by
                        rw [isSysMsg_setSyscallRv]
                        exact ht.tagS _ (tlookup_mem hl))]
                      simp)
                · intro h1b
                  exact Or.inl h1b
      · exact Or.inr (Or.inl ⟨memAccessIn_cons hma, execMemIn_cons hem⟩)
      · cases a with
        | tbTrans b =>
            have hw3 : tlookup (callback_on_tb_trans f host b s).memEvents idv
                = some w := hw
            rcases tlookup_memEvents_tb_trans f host b s idv with h2 | ⟨pc, h2⟩
            · rw [h2] at hw3
              exact Or.inr (Or.inr (c2_lift_state hw3 hcase))
            · rw [h2] at hw3
              have hww : w = newmemaccessWrapper pc 0 false :=
                (Option.some.inj hw3).symm
              subst hww
              rcases hcase with ⟨hm, _⟩ | ⟨hx, _⟩
              · exact absurd hm (by simp [newmemaccessWrapper])
              · exact absurd hx (by simp [newmemaccessWrapper])
        | insnExec idv2 =>
            have hw3 : tlookup (callback_on_insn_exec s idv2).memEvents idv
                = some w := hw
            rw [memEvents_insn_exec] at hw3
            exact Or.inr (Or.inr (c2_lift_state hw3 hcase))
        | insnExecMem idv2 =>
            have hw3 : tlookup (callback_on_insn_exec_mem s idv2).memEvents idv
                = some w := hw
            revert hw3
            unfold callback_on_insn_exec_mem
            cases hl : tlookup s.memEvents idv2 with
            | none =>
                exact fun hw3 => Or.inr (Or.inr (c2_lift_state hw3 hcase))
            | some w0 =>
                dsimp only
                split_ifs
                · intro hw3
                  dsimp only at hw3
                  by_cases hid : idv = idv2
                  · subst hid
                    rw [tlookup_tremove_self] at hw3
                    exact absurd hw3 (by simp)
                  · rw [tlookup_tremove_ne hid] at hw3
                    exact Or.inr (Or.inr (c2_lift_state hw3 hcase))
                · intro hw3
                  dsimp only at hw3
                  by_cases hid : idv = idv2
                  · subst hid
                    rw [tlookup_tinsert_self] at hw3
                    obtain rfl := Option.some.inj hw3
                    rcases hcase with ⟨hm, he⟩ | ⟨_, ha⟩
                    · have hm2 : w0.mem = true := hm
                      exact Or.inr (Or.inr ⟨w0, hl,
                        Or.inl ⟨hm2, execMemIn_cons he⟩⟩)
                    · exact Or.inr (Or.inl
                        ⟨memAccessIn_cons ha, List.mem_cons_self _ _⟩)
                  · rw [tlookup_tinsert_ne _ hid] at hw3
                    exact Or.inr (Or.inr (c2_lift_state hw3 hcase))
        | memAccess idv2 v st =>
            have hw3 : tlookup (callback_on_mem_access s idv2 v st).memEvents idv
                = some w := hw
            revert hw3
            unfold callback_on_mem_access
            cases hl : tlookup s.memEvents idv2 with
            | none =>
                exact fun hw3 => Or.inr (Or.inr (c2_lift_state hw3 hcase))
            | some w0 =>
                dsimp only
                split_ifs
                · intro hw3
                  dsimp only at hw3
                  by_cases hid : idv = idv2
                  · subst hid
                    rw [tlookup_tremove_self] at hw3
                    exact absurd hw3 (by simp)
                  · rw [tlookup_tremove_ne hid] at hw3
                    exact Or.inr (Or.inr (c2_lift_state hw3 hcase))
                · intro hw3
                  dsimp only at hw3
                  by_cases hid : idv = idv2
                  · subst hid
                    rw [tlookup_tinsert_self] at hw3
                    obtain rfl := Option.some.inj hw3
                    rcases hcase with ⟨_, he⟩ | ⟨hx, ha⟩
                    · exact Or.inr (Or.inl
                        ⟨⟨v, st, List.mem_cons_self _ _⟩, execMemIn_cons he⟩)
                    · have hx2 : w0.exec = true := hx
                      exact Or.inr (Or.inr ⟨w0, hl,
                        Or.inr ⟨hx2, memAccessIn_cons ha⟩⟩)
                  · rw [tlookup_tinsert_ne _ hid] at hw3
                    exact Or.inr (Or.inr (c2_lift_state hw3 hcase))
        | sysEnter vcpu num a1 a2 a3 a4 a5 a6 a7 a8 =>
            exact Or.inr (Or.inr (c2_lift_state hw hcase))
        | sysRet vcpu num ret =>
            have hw3 : tlookup (callback_after_syscall s vcpu num ret).memEvents idv
                = some w := hw
            rw [memEvents_after_syscall] at hw3
            exact Or.inr (Or.inr (c2_lift_state hw3 hcase))

/-- If the memory callback already fired, the execution callback is the
second observer: it submits the inner message and removes the wrapper. -/
theorem insn_exec_mem_second {s : PState} {idv : Nat} {w : MemWrapper}
    (hl : tlookup s.memEvents idv = some w) (hm : w.mem = true) :
    callback_on_insn_exec_mem s idv
      = { s with log := s.log ++ [⟨some idv, w.msg⟩],
                 memEvents := tremove s.memEvents idv } := by
  unfold callback_on_insn_exec_mem
  rw [hl]
  dsimp only
  rw [if_pos (by simp [hm])]

/-- If the memory callback has not fired yet, the execution callback only
records `exec_seen` and submits nothing. -/
theorem insn_exec_mem_first {s : PState} {idv : Nat} {w : MemWrapper}
    (hl : tlookup s.memEvents idv = some w) (hm : w.mem = false) :
    callback_on_insn_exec_mem s idv
      = { s with memEvents := tinsert s.memEvents idv { w with exec := true } } := by
  unfold callback_on_insn_exec_mem
  rw [hl]
  dsimp only
  rw [if_neg (by simp [hm])]

/-- If the execution callback already fired, the memory callback is the
second observer: it writes the address and direction and submits. -/
theorem mem_access_second {s : PState} {idv vaddr : Nat} {st : Bool}
    {w : MemWrapper} (hl : tlookup s.memEvents idv = some w)
    (hx : w.exec = true) :
    callback_on_mem_access s idv vaddr st
      = { s with log := s.log ++ [⟨some idv, setMemAddr w.msg vaddr st⟩],
                 memEvents := tremove s.memEvents idv } := by
  unfold callback_on_mem_access
  rw [hl]
  dsimp only
  rw [if_pos (by simp [hx])]

/-- If the execution callback has not fired yet, the memory callback records
the address, direction, and `mem_seen`, and submits nothing. -/
theorem mem_access_first {s : PState} {idv vaddr : Nat} {st : Bool}
    {w : MemWrapper} (hl : tlookup s.memEvents idv = some w)
    (hx : w.exec = false) :
    callback_on_mem_access s idv vaddr st
      = { s with memEvents := tinsert s.memEvents idv { w with mem := true, msg := setMemAddr w.msg vaddr st } } := by
  unfold callback_on_mem_access
  rw [hl]
  dsimp only
  rw [if_neg (by simp [hx])]

/-- C2.  A memory per-instruction record is submitted exactly when both the
`mem` and `exec` flags on its wrapper are true — whichever of the memory and
execution callbacks arrives second performs the submission, and the first
arrival only records its flag; the memory callback writes `addr` from the
host-supplied vaddr and `is_write` from the host's is-store predicate; every
submitted `MemAccess` record had both callbacks observed in the trace before
submission; and in Scenarios B and C — either callback order for a
one-instruction block at 0x400100 — the single registered-record event
emitted is `MemAccess{pc, addr = callback vaddr, is_write = is-store}`. -/
theorem c2_mem_event_two_phase_assembly :
    (∀ (f : Nat) (host : Host) (acts : List Action) (idv : Nat),
        memSubmitted (run f host initState acts).log idv →
        memAccessIn acts idv ∧ execMemIn acts idv)
    ∧ (∀ (s : PState) (idv : Nat) (w : MemWrapper),
        tlookup s.memEvents idv = some w → w.mem = true →
        callback_on_insn_exec_mem s idv
          = { s with log := s.log ++ [⟨some idv, w.msg⟩],
                     memEvents := tremove s.memEvents idv })
    ∧ (∀ (s : PState) (idv : Nat) (w : MemWrapper),
        tlookup s.memEvents idv = some w → w.mem = false →
        callback_on_insn_exec_mem s idv
          = { s with memEvents := tinsert s.memEvents idv { w with exec := true } })
    ∧ (∀ (s : PState) (idv vaddr : Nat) (st : Bool) (w : MemWrapper),
        tlookup s.memEvents idv = some w → w.exec = true →
        callback_on_mem_access s idv vaddr st
          = { s with log := s.log ++ [⟨some idv, setMemAddr w.msg vaddr st⟩],
                     memEvents := tremove s.memEvents idv })
    ∧ (∀ (s : PState) (idv vaddr : Nat) (st : Bool) (w : MemWrapper),
        tlookup s.memEvents idv = some w → w.exec = false →
        callback_on_mem_access s idv vaddr st
          = { s with memEvents := tinsert s.memEvents idv { w with mem := true, msg := setMemAddr w.msg vaddr st } })
    ∧ (∀ (fl pc addr0 vaddr : Nat) (w0 st : Bool),
        setMemAddr ⟨fl, .memAccessEvt pc addr0 w0⟩ vaddr st
          = ⟨fl, .memAccessEvt pc vaddr st⟩)
    ∧ validTrace (setflags false true false false false)
        ⟨0x1000, 0x2000, 0x1500⟩ initState
        [.tbTrans [⟨0x400100, [0x90]⟩], .insnExecMem 0,
          .memAccess 0 0xdead0000 false] = true
    ∧ (run (setflags false true false false false) ⟨0x1000, 0x2000, 0x1500⟩
        initState [.tbTrans [⟨0x400100, [0x90]⟩], .insnExecMem 0,
          .memAccess 0 0xdead0000 false]).log.filter (fun e => e.ref.isSome)
        = [⟨some 0, ⟨FLAG_READS_WRITES, .memAccessEvt 0x400100 0xdead0000 false⟩⟩]
    ∧ (run (setflags false true false false false) ⟨0x1000, 0x2000, 0x1500⟩
        initState [.tbTrans [⟨0x400100, [0x90]⟩], .memAccess 0 0xbeef true,
          .insnExecMem 0]).log.filter (fun e => e.ref.isSome)
        = [⟨some 0, ⟨FLAG_READS_WRITES, .memAccessEvt 0x400100 0xbeef true⟩⟩] := by
  refine ⟨?_, fun s idv w hl hm => insn_exec_mem_second hl hm,
    fun s idv w hl hm => insn_exec_mem_first hl hm,
    fun s idv vaddr st w hl hx => mem_access_second hl hx,
    fun s idv vaddr st w hl hx => mem_access_first hl hx,
    fun fl pc addr0 vaddr w0 st => rfl, by decide, by decide, by decide⟩
  intro f host acts idv h
  rcases c2_submitted_both_observed f host acts initState tagInv_init idv h
    with h1 | h2 | ⟨w, hw, _⟩
  · rcases h1 with ⟨e, he, _, _⟩
    exact absurd he (by simp [initState])
  · exact h2
  · exact absurd hw (by simp [initState, tlookup])

/-- C2 witness: in Scenario B both callbacks for record 0 appear in the
trace, as the theorem demands for its submitted MemAccess event. -/
theorem c2_mem_event_two_phase_assembly_witness :
    memAccessIn [Action.tbTrans [⟨0x400100, [0x90]⟩], .insnExecMem 0,
        .memAccess 0 0xdead0000 false] 0
    ∧ execMemIn [Action.tbTrans [⟨0x400100, [0x90]⟩], .insnExecMem 0,
        .memAccess 0 0xdead0000 false] 0 :=
  c2_mem_event_two_phase_assembly.1 (setflags false true false false false)
    ⟨0x1000, 0x2000, 0x1500⟩
    [.tbTrans [⟨0x400100, [0x90]⟩], .insnExecMem 0,
      .memAccess 0 0xdead0000 false] 0
    ⟨⟨some 0, ⟨FLAG_READS_WRITES, .memAccessEvt 0x400100 0xdead0000 false⟩⟩,
      by decide, rfl, rfl⟩

end Cannonball
